import Mathlib

/-!
Verification of the packed binary-tower field arithmetic engine and the
arithmetic-circuit polynomial wrapper of the binius repository.

The development shallowly embeds the Rust sources:
* `src/field/arch/portable/packed_arithmetic.rs` — underliers are `Nat`
  values below `2 ^ 2 ^ K` (an underlier of `2 ^ K` bits); every bitwise
  operation of the source is translated to the corresponding `Nat`
  operation, with an explicit `% 2 ^ 2 ^ K` wherever a Rust left shift
  would discard high bits.
* `crates/math/src/polynomial/arith_circuit.rs` — expressions are an
  inductive type; panics are modelled by `Option`, recoverable errors by
  `Except`.

Scalar tower-field semantics (multiplication, inversion) are not part of
the extracted sources, so they are modelled from the specification's
recursive quadratic-extension rule and verified against the packed code.
-/

namespace Binius

/-! ## Arithmetic circuit (`crates/math/src/polynomial/arith_circuit.rs`) -/

/-- Embedding of `Expr<F>`: a node of the expression DAG. Operand indices
refer to earlier positions of the expression list. -/
inductive AExpr (F : Type) where
  | const (c : F)
  | var (idx : Nat)
  | add (x y : Nat)
  | mul (x y : Nat)
  | pow (x : Nat) (n : Nat)

/-- The `debug_assert!` conditions of `ArithCircuitPoly::new` for the node at
position `i`: operands reference strictly earlier indices. -/
def okOperands {F : Type} (e : AExpr F) (i : Nat) : Prop :=
  match e with
  | .add x y => x < i ∧ y < i
  | .mul x y => x < i ∧ y < i
  | .pow x _ => x < i
  | _ => True

/-- A well-formed DAG: every node's operands reference strictly earlier
indices, as required by the documentation of `Expr`. -/
def ValidDag {F : Type} (exprs : List (AExpr F)) : Prop :=
  ∀ i (h : i < exprs.length), okOperands (exprs.get ⟨i, h⟩) i

/-- The degree-computation loop of `ArithCircuitPoly::new`: `ds` is the list
of degrees computed so far (so the current index is `ds.length`).  A failed
`debug_assert!`/out-of-bounds index is modelled by `none`. -/
def degreesLoop {F : Type} : List (AExpr F) → List Nat → Option (List Nat)
  | [], ds => some ds
  | e :: rest, ds =>
    match e with
    | .const _ => degreesLoop rest (ds ++ [0])
    | .var _ => degreesLoop rest (ds ++ [1])
    | .add x y =>
      if h : x < ds.length ∧ y < ds.length then
        degreesLoop rest (ds ++ [max (ds.get ⟨x, h.1⟩) (ds.get ⟨y, h.2⟩)])
      else none
    | .mul x y =>
      if h : x < ds.length ∧ y < ds.length then
        degreesLoop rest (ds ++ [ds.get ⟨x, h.1⟩ + ds.get ⟨y, h.2⟩])
      else none
    | .pow x n =>
      if h : x < ds.length then
        degreesLoop rest (ds ++ [ds.get ⟨x, h⟩ * n])
      else none

/-- The `n_vars` computation of `ArithCircuitPoly::new`: the maximum of
`index + 1` over all `Var(index)` nodes, `0` when there is none. -/
def nVarsOf {F : Type} (exprs : List (AExpr F)) : Nat :=
  (exprs.map (fun e => match e with | .var i => i + 1 | _ => 0)).foldr max 0

/-- Embedding of `ArithCircuitPoly::new`, returning the `(degree, n_vars)`
pair; `none` models a panic (the `unwrap` of the last degree, or a failed
operand assertion). -/
def arithNew {F : Type} (exprs : List (AExpr F)) : Option (Nat × Nat) :=
  match degreesLoop exprs [] with
  | none => none
  | some ds =>
    match ds.getLast? with
    | none => none
    | some d => some (d, nVarsOf exprs)

/-- The `ArithCircuitPoly` record: the expression DAG together with the
cached `degree` and `n_vars` values computed by `new`. -/
structure ACircuit (F P : Type) where
  exprs : List (AExpr F)
  degree : Nat
  nVars : Nat

/-- Embedding of `binius_math::polynomial::Error` as far as `evaluate`
produces it. -/
inductive CircuitError where
  | incorrectQuerySize (expected : Nat)
deriving DecidableEq

/-- The inner loop of the internal `pow` helper: `powAux v e k res` runs the
iterations for bit indices `k-1, …, 0`; each iteration squares the
accumulator and multiplies by `v` when the corresponding exponent bit is
set. -/
def powAux {P : Type} [Mul P] (v : P) (e : Nat) : Nat → P → P
  | 0, res => res
  | i + 1, res =>
    powAux v e i (if e.testBit i then res * res * v else res * res)

/-- Embedding of the internal `pow(value, exp)` helper used for `Pow`
nodes: square-and-multiply over the 64 bits of the exponent, starting from
`P::one()`.  `P::square` is modelled as multiplication by itself. -/
def powCode {P : Type} [Mul P] [One P] (v : P) (e : Nat) : P :=
  powAux v e 64 1

/-- The evaluation loop of `ArithCircuitPoly::evaluate`: `acc` is the list
of already-evaluated nodes.  The `get_unchecked` accesses of the source are
modelled with a zero default (they are in bounds for circuits produced by
`new` on a valid DAG). -/
def evalExprs {F P : Type} [Zero P] [Add P] [Mul P] [One P]
    (bc : F → P) (query : List P) : List (AExpr F) → List P → List P
  | [], acc => acc
  | e :: rest, acc =>
    let v : P :=
      match e with
      | .const c => bc c
      | .var i => query.getD i 0
      | .add x y => acc.getD x 0 + acc.getD y 0
      | .mul x y => acc.getD x 0 * acc.getD y 0
      | .pow x n => powCode (acc.getD x 0) n
    evalExprs bc query rest (acc ++ [v])

/-- Embedding of `ArithCircuitPoly::evaluate`: reject a query whose length
differs from `n_vars` with `IncorrectQuerySize { expected: n_vars }`,
otherwise evaluate the DAG and return the last node's value. -/
def evaluateC {F P : Type} [Zero P] [Add P] [Mul P] [One P]
    (bc : F → P) (c : ACircuit F P) (query : List P) : Except CircuitError P :=
  if query.length ≠ c.nVars then
    .error (.incorrectQuerySize c.nVars)
  else
    .ok ((evalExprs bc query c.exprs []).getLastD 0)

/-! ## Packed tower field (`src/field/arch/portable/packed_arithmetic.rs`):
definitions

Underliers of `2^K` bits are `Nat` values below `2 ^ 2 ^ K`.  Rust left
shifts on a fixed-width integer silently drop the bits shifted past the
top, so every embedded left shift that could exceed the width carries an
explicit `% 2 ^ 2 ^ K`. -/

/-- Lane extraction: lane `i` of a packed vector at tower level `L` occupies
bits `[i·2^L, (i+1)·2^L)` of the underlier. -/
def lane (L i u : Nat) : Nat := (u >>> (i * 2 ^ L)) % 2 ^ 2 ^ L

/-- The spreading loop shared by the `interleave_mask_even!` and `alphas!`
macros: starting from value `x` at loop index `i`, `or` the value with
itself shifted left by `2^(L+i)` bits (`scalar_bits << i` in the mask
macro, `1 << (tower_level + i)` in the alpha macro), increment `i`, and
repeat `fuel` times.  No shift here can cross the underlier width. -/
def spreadFrom (L : Nat) : Nat → Nat → Nat → Nat
  | x, _, 0 => x
  | x, i, fuel + 1 => spreadFrom L (x ||| (x <<< 2 ^ (L + i))) (i + 1) fuel

/-- `interleave_mask_even!($underlier, L)` for an underlier of `2^K` bits:
start from `2^scalar_bits - 1` and run the spreading loop for
`log_width - 1 = K - L - 1` iterations. -/
def evenMask (K L : Nat) : Nat := spreadFrom L (2 ^ 2 ^ L - 1) 1 (K - L - 1)

/-- `interleave_mask_odd!($underlier, L)`: the even mask shifted left by one
lane (`1 << tower_level` bits). -/
def oddMask (K L : Nat) : Nat := (evenMask K L <<< 2 ^ L) % 2 ^ 2 ^ K

/-- The initial per-lane alpha value of the `alphas!` macro: `1` at tower
level 0 and `1 << (1 << (L-1))` at level `L ≥ 1` (the level's generator). -/
def alphaVal : Nat → Nat
  | 0 => 1
  | L + 1 => 2 ^ 2 ^ L

/-- `alphas!($underlier, L)` for an underlier of `2^K` bits: the initial
value spread by the macro's `while` loop. -/
def alphasU (K L : Nat) : Nat := spreadFrom L (alphaVal L) 1 (K - L - 1)

/-- The free function `interleave::<U, F>(a, b)` of the source: the
stride-2 transpose of two packed vectors at tower level `L` over a
`2^K`-bit underlier (Hacker's Delight section 7-3). -/
def interleaveU (K L : Nat) (a b : Nat) : Nat × Nat :=
  let mask := evenMask K L
  let blockLen := 2 ^ L
  let t := ((a >>> blockLen) ^^^ b) &&& mask
  (a ^^^ ((t <<< blockLen) % 2 ^ 2 ^ K), b ^^^ t)

/-- The per-level mask table `INTERLEAVE_EVEN_MASK` of a `2^K`-bit
underlier, modelled from the spec (the per-type constant tables are outside
the extracted source): one entry per tower level `0..K`; a `u128` (`K = 7`,
"there are 2^7 = 128 bits in a u128") has entries for levels 0–6. -/
def interleaveMasks (K : Nat) : List Nat := (List.range K).map (evenMask K)

/-- The trait method `UnderlierWithBitConstants::interleave` together with
its `assert!(log_block_len < Self::INTERLEAVE_EVEN_MASK.len())`; `none`
models the assertion panic. -/
def interleaveChecked (K a b logBlockLen : Nat) : Option (Nat × Nat) :=
  if logBlockLen < (interleaveMasks K).length then
    some (interleaveU K logBlockLen a b)
  else
    none

/-- `xor_adjacent::<U, F>(a)`: the XOR of each adjacent lane pair,
duplicated into both lane positions. -/
def xorAdjacent (K L : Nat) (a : Nat) : Nat :=
  let mask := evenMask K L
  let blockLen := 2 ^ L
  let t := ((a >>> blockLen) ^^^ a) &&& mask
  t ^^^ ((t <<< blockLen) % 2 ^ 2 ^ K)

/-- Modelled from the spec: the scalar multiplication of the binary tower
(the scalar field implementation is outside the extracted source).  A
level-`(L+1)` scalar decomposes as `lo + hi·X` over level `L` with
`X² = X·α_L + 1`, giving
`(a₀+a₁X)(b₀+b₁X) = (a₀b₀+a₁b₁) + (a₀b₁+a₁b₀+α_L·a₁b₁)X`;
level-0 multiplication is the GF(2) primitive, a single-bit AND. -/
def tmul : Nat → Nat → Nat → Nat
  | 0, a, b => a &&& b
  | L + 1, a, b =>
    let h := 2 ^ 2 ^ L
    let a0 := a % h
    let a1 := a / h
    let b0 := b % h
    let b1 := b / h
    let z0 := tmul L a0 b0
    let z2 := tmul L a1 b1
    let cross := tmul L a0 b1 ^^^ tmul L a1 b0
    (z0 ^^^ z2) + h * (cross ^^^ tmul L (alphaVal L) z2)

/-- Modelled from the spec (§4.6): scalar inversion-or-zero of the tower
via the norm `δ = a₀·(a₀+α·a₁) + a₁²`, with
`(a₀+a₁X)⁻¹ = δ⁻¹·((a₀+α·a₁) + a₁X)`; level-0 inversion is the externally
supplied GF(2) base case, the identity. -/
def sinv : Nat → Nat → Nat
  | 0, a => a
  | L + 1, a =>
    let h := 2 ^ 2 ^ L
    let a0 := a % h
    let a1 := a / h
    let itm := a0 ^^^ tmul L (alphaVal L) a1
    let dlt := tmul L a0 itm ^^^ tmul L a1 a1
    let di := sinv L dlt
    tmul L di itm + h * tmul L di a1

/-- Helper for `broadcastU`: `x` replicated into `n` adjacent lanes of `w`
bits each. -/
def repLanes (x w : Nat) : Nat → Nat
  | 0 => 0
  | n + 1 => x ||| (repLanes x w n <<< w)

/-- Modelled from the spec: broadcast a level-`L` scalar into every lane of
a `2^K`-bit underlier. -/
def broadcastU (K L x : Nat) : Nat := repLanes x (2 ^ L) (2 ^ (K - L))

/-- Embedding of `TaggedMul<PackedStrategy>::mul` at tower level `L` on a
`2^K`-bit underlier.  The recursion mirrors the subfield multiplications
(`repacked_a * repacked_b` and the interleaved middle product); the level-0
base case — outside the extracted source — is the GF(2) lane-wise AND, per
the spec. -/
def packedMul (K : Nat) : Nat → Nat → Nat → Nat
  | 0, a, b => a &&& b
  | L + 1, a, b =>
    let w := 2 ^ 2 ^ K
    let z02 := packedMul K L a b
    let lohi := interleaveU K L a b
    let loPlusHi := lohi.1 ^^^ lohi.2
    let odd := oddMask K L
    let alphaEvenZ2Odd := alphasU K L ^^^ (z02 &&& odd)
    let cd := interleaveU K L loPlusHi alphaEvenZ2Odd
    let z1z2a := packedMul K L cd.1 cd.2
    let zeroEven := (z1z2a ^^^ ((z1z2a <<< 2 ^ L) % w)) &&& odd
    let dup := xorAdjacent K L z02
    dup ^^^ zeroEven

/-- Embedding of `TaggedMulAlpha<PackedStrategy>::mul_alpha`; the level-0
base case is the identity (multiplication by `α₀ = 1`). -/
def packedMulAlpha (K : Nat) : Nat → Nat → Nat
  | 0, a => a
  | L + 1, a =>
    let w := 2 ^ 2 ^ K
    let blockLen := 2 ^ L
    let a0 := a &&& evenMask K L
    let a1 := a &&& oddMask K L
    let z1 := packedMulAlpha K L a1
    (a1 >>> blockLen) ||| (((a0 <<< blockLen) % w) ^^^ z1)

/-- Embedding of `TaggedSquare<PackedStrategy>::square`; the level-0 base
case is the identity (GF(2) squaring). -/
def packedSquare (K : Nat) : Nat → Nat → Nat
  | 0, a => a
  | L + 1, a =>
    let blockLen := 2 ^ L
    let z02 := packedSquare K L a
    let z2a := packedMulAlpha K L z02 &&& oddMask K L
    let z0xz2 := (z02 ^^^ (z02 >>> blockLen)) &&& evenMask K L
    z0xz2 ||| z2a

/-- Embedding of `TaggedInvertOrZero<PackedStrategy>::invert_or_zero`;
packed addition of binary fields is underlier XOR, and the level-0 base
case is the externally supplied GF(2) inverse, the identity. -/
def packedInvert (K : Nat) : Nat → Nat → Nat
  | 0, a => a
  | L + 1, a =>
    let w := 2 ^ 2 ^ K
    let blockLen := 2 ^ L
    let even := evenMask K L
    let odd := oddMask K L
    let a1even := a >>> blockLen
    let itm := a ^^^ packedMulAlpha K L a1even
    let dlt := packedMul K L a itm ^^^ packedSquare K L a1even
    let dinv := packedInvert K L dlt
    let dd0 := dinv &&& even
    let dd := dd0 ||| ((dd0 <<< blockLen) % w)
    let itmA1 := (a &&& odd) ||| (itm &&& even)
    packedMul K L dd itmA1

/-! ## Abstract binary tower

A clean, pair-based model of the tower scalars used to establish the
algebraic facts (ring laws, irreducibility of `X² + αX + 1`, inversion
correctness) that the bit-level development then transports to the `Nat`
encoding. -/

/-- A quadratic extension layer: `lo + hi·X` over the level below. -/
@[ext]
structure QE (R : Type) where
  lo : R
  hi : R

/-- The algebraic data carried up the binary tower: a commutative ring of
characteristic 2, the level's generator `α` with an explicit inverse, the
absolute trace to GF(2) with the identities the irreducibility argument
needs, and inversion-or-zero with its correctness. -/
class TowerAlg (R : Type) extends CommRing R where
  alp : R
  alpInv : R
  alp_mul_alpInv : alp * alpInv = 1
  two_eq_zero : (2 : R) = 0
  tr : R → ZMod 2
  tr_add : ∀ x y : R, tr (x + y) = tr x + tr y
  tr_sq : ∀ x : R, tr (x * x) = tr x
  tr_alp : tr alp = 1
  tr_alpInv : tr alpInv = 1
  inv0 : R → R
  inv0_zero : inv0 0 = 0
  mul_inv0 : ∀ x : R, x ≠ 0 → x * inv0 x = 1
  zero_ne_one : (0 : R) ≠ 1

/-- The generator of a tower level. -/
def alpOf (R : Type) [TowerAlg R] : R := TowerAlg.alp

/-- The explicit inverse of the generator. -/
def alpInvOf (R : Type) [TowerAlg R] : R := TowerAlg.alpInv

/-- The absolute trace of a tower level. -/
def trOf {R : Type} [TowerAlg R] : R → ZMod 2 := TowerAlg.tr

/-- Inversion-or-zero of a tower level. -/
def invOf {R : Type} [TowerAlg R] : R → R := TowerAlg.inv0

instance instQEZero {R : Type} [TowerAlg R] : Zero (QE R) := ⟨⟨0, 0⟩⟩

instance instQEOne {R : Type} [TowerAlg R] : One (QE R) := ⟨⟨1, 0⟩⟩

instance instQEAdd {R : Type} [TowerAlg R] : Add (QE R) :=
  ⟨fun x y => ⟨x.lo + y.lo, x.hi + y.hi⟩⟩

instance instQENeg {R : Type} [TowerAlg R] : Neg (QE R) :=
  ⟨fun x => ⟨-x.lo, -x.hi⟩⟩

/-- Multiplication in the extension `R[X]/(X² + αX + 1)`:
`(a₀+a₁X)(b₀+b₁X) = (a₀b₀+a₁b₁) + (a₀b₁+a₁b₀+α·a₁b₁)X`
(signs are irrelevant in characteristic 2). -/
instance instQEMul {R : Type} [TowerAlg R] : Mul (QE R) :=
  ⟨fun x y => ⟨x.lo * y.lo + x.hi * y.hi,
    x.lo * y.hi + x.hi * y.lo + alpOf R * (x.hi * y.hi)⟩⟩

theorem QE.zero_lo {R : Type} [TowerAlg R] : (0 : QE R).lo = 0 := rfl

theorem QE.zero_hi {R : Type} [TowerAlg R] : (0 : QE R).hi = 0 := rfl

theorem QE.one_lo {R : Type} [TowerAlg R] : (1 : QE R).lo = 1 := rfl

theorem QE.one_hi {R : Type} [TowerAlg R] : (1 : QE R).hi = 0 := rfl

theorem QE.add_lo {R : Type} [TowerAlg R] (x y : QE R) :
    (x + y).lo = x.lo + y.lo := rfl

theorem QE.add_hi {R : Type} [TowerAlg R] (x y : QE R) :
    (x + y).hi = x.hi + y.hi := rfl

theorem QE.neg_lo {R : Type} [TowerAlg R] (x : QE R) : (-x).lo = -x.lo := rfl

theorem QE.neg_hi {R : Type} [TowerAlg R] (x : QE R) : (-x).hi = -x.hi := rfl

theorem QE.mul_lo {R : Type} [TowerAlg R] (x y : QE R) :
    (x * y).lo = x.lo * y.lo + x.hi * y.hi := rfl

theorem QE.mul_hi {R : Type} [TowerAlg R] (x y : QE R) :
    (x * y).hi = x.lo * y.hi + x.hi * y.lo + alpOf R * (x.hi * y.hi) := rfl

attribute [simp] QE.zero_lo QE.zero_hi QE.one_lo QE.one_hi QE.add_lo
  QE.add_hi QE.neg_lo QE.neg_hi QE.mul_lo QE.mul_hi

instance instQECommRing {R : Type} [TowerAlg R] : CommRing (QE R) where
  add_assoc a b c := by ext <;> simp [add_assoc]
  zero_add a := by ext <;> simp
  add_zero a := by ext <;> simp
  add_comm a b := by ext <;> simp [add_comm]
  neg_add_cancel a := by ext <;> simp
  left_distrib a b c := by ext <;> simp <;> ring
  right_distrib a b c := by ext <;> simp <;> ring
  zero_mul a := by ext <;> simp
  mul_zero a := by ext <;> simp
  mul_assoc a b c := by ext <;> simp <;> ring
  one_mul a := by ext <;> simp
  mul_one a := by ext <;> simp
  mul_comm a b := by ext <;> simp <;> ring
  nsmul := nsmulRec
  zsmul := zsmulRec

theorem add_self_eq_zero_of_tower {R : Type} [TowerAlg R] (x : R) : x + x = 0 := by
  have h := TowerAlg.two_eq_zero (R := R)
  calc x + x = 2 * x := by ring
    _ = 0 := by rw [h]; ring

theorem trOf_add {R : Type} [TowerAlg R] (x y : R) :
    trOf (x + y) = trOf x + trOf y := TowerAlg.tr_add x y

theorem trOf_sq {R : Type} [TowerAlg R] (x : R) : trOf (x * x) = trOf x :=
  TowerAlg.tr_sq x

theorem zmod2_add_self : ∀ z : ZMod 2, z + z = 0 := by decide

theorem zmod2_neg_eq_self : ∀ z : ZMod 2, -z = z := by decide

theorem trOf_zero {R : Type} [TowerAlg R] : trOf (0 : R) = 0 := by
  have h := trOf_add (0 : R) 0
  rw [add_zero] at h
  exact (self_eq_add_right.mp h)

theorem trOf_neg {R : Type} [TowerAlg R] (x : R) : trOf (-x) = trOf x := by
  have h := trOf_add x (-x)
  rw [add_neg_cancel, trOf_zero] at h
  have h2 : trOf (-x) = -trOf x := by
    rw [eq_neg_iff_add_eq_zero, add_comm]
    exact h.symm
  rw [h2]
  exact zmod2_neg_eq_self _

/-- Irreducibility of the defining polynomial at every tower level:
`X² + αX + 1` has no root, by the Artin–Schreier trace argument. -/
theorem tower_no_root {R : Type} [TowerAlg R] (t : R) :
    t * t + alpOf R * t + 1 ≠ 0 := by
  intro h
  have hα : alpOf R * alpInvOf R = 1 := TowerAlg.alp_mul_alpInv
  have key : alpInvOf R * alpInvOf R =
      -(t * alpInvOf R * (t * alpInvOf R)) + -(t * alpInvOf R) := by
    linear_combination (alpInvOf R * alpInvOf R) * h - (t * alpInvOf R) * hα
  have h2 : trOf (alpInvOf R * alpInvOf R) = 0 := by
    rw [key, trOf_add, trOf_neg, trOf_neg, trOf_sq]
    exact zmod2_add_self _
  have h3 : trOf (alpInvOf R * alpInvOf R) = 1 := by
    rw [trOf_sq]
    exact TowerAlg.tr_alpInv
  rw [h2] at h3
  exact absurd h3 (by decide)

/-- One inversion step of the abstract tower, mirroring the spec's §4.6
norm-based formula. -/
def qeInv {R : Type} [TowerAlg R] (x : QE R) : QE R :=
  ⟨invOf (x.lo * (x.lo + alpOf R * x.hi) + x.hi * x.hi) * (x.lo + alpOf R * x.hi),
   invOf (x.lo * (x.lo + alpOf R * x.hi) + x.hi * x.hi) * x.hi⟩

theorem qeInv_zero {R : Type} [TowerAlg R] : qeInv (0 : QE R) = 0 := by
  have h0 : (0 : QE R).lo * ((0 : QE R).lo + alpOf R * (0 : QE R).hi) +
      (0 : QE R).hi * (0 : QE R).hi = 0 := by simp
  have hi0 : invOf (0 : R) = 0 := TowerAlg.inv0_zero
  unfold qeInv
  rw [h0, hi0]
  ext <;> simp

/-- The norm `δ = a₀·(a₀+α·a₁) + a₁²` of a nonzero element is nonzero:
the heart of the inversion algorithm. -/
theorem qe_norm_ne_zero {R : Type} [TowerAlg R] (x : QE R) (hx : x ≠ 0) :
    x.lo * (x.lo + alpOf R * x.hi) + x.hi * x.hi ≠ 0 := by
  intro hd
  by_cases h1 : x.hi = 0
  · have hlo2 : x.lo * x.lo = 0 := by
      rw [h1] at hd
      linear_combination hd
    have hlo : x.lo = 0 := by
      by_contra hne
      have hinv : x.lo * invOf x.lo = 1 := TowerAlg.mul_inv0 x.lo hne
      have hone : (1 : R) = 0 := by
        linear_combination (invOf x.lo * invOf x.lo) * hlo2 -
          (1 + x.lo * invOf x.lo) * hinv
      exact TowerAlg.zero_ne_one hone.symm
    exact hx (by ext <;> simp [hlo, h1])
  · have hinv : x.hi * invOf x.hi = 1 := TowerAlg.mul_inv0 x.hi h1
    have root : x.lo * invOf x.hi * (x.lo * invOf x.hi) +
        alpOf R * (x.lo * invOf x.hi) + 1 = 0 := by
      linear_combination (invOf x.hi * invOf x.hi) * hd -
        (alpOf R * x.lo * invOf x.hi + 1 + x.hi * invOf x.hi) * hinv
    exact tower_no_root _ root

theorem qe_mul_qeInv {R : Type} [TowerAlg R] (x : QE R) (hx : x ≠ 0) :
    x * qeInv x = 1 := by
  have hd := qe_norm_ne_zero x hx
  have hinv : (x.lo * (x.lo + alpOf R * x.hi) + x.hi * x.hi) *
      invOf (x.lo * (x.lo + alpOf R * x.hi) + x.hi * x.hi) = 1 :=
    TowerAlg.mul_inv0 _ hd
  have h2 := TowerAlg.two_eq_zero (R := R)
  ext
  · show x.lo * (qeInv x).lo + x.hi * (qeInv x).hi = 1
    simp only [qeInv]
    linear_combination hinv
  · show x.lo * (qeInv x).hi + x.hi * (qeInv x).lo +
      alpOf R * (x.hi * (qeInv x).hi) = 0
    simp only [qeInv]
    linear_combination (x.lo * x.hi *
        invOf (x.lo * (x.lo + alpOf R * x.hi) + x.hi * x.hi) +
      alpOf R * x.hi * x.hi *
        invOf (x.lo * (x.lo + alpOf R * x.hi) + x.hi * x.hi)) * h2

instance instQETower {R : Type} [TowerAlg R] : TowerAlg (QE R) where
  toCommRing := instQECommRing
  alp := ⟨0, 1⟩
  alpInv := ⟨alpOf R, 1⟩
  alp_mul_alpInv := by
    ext <;> simp [add_self_eq_zero_of_tower]
  two_eq_zero := by
    have h : (2 : QE R) = 1 + 1 := by norm_num
    rw [h]
    ext <;> simp [add_self_eq_zero_of_tower]
  tr := fun x => trOf (alpOf R * x.hi)
  tr_add := by
    intro x y
    show trOf (alpOf R * (x + y).hi) = trOf (alpOf R * x.hi) + trOf (alpOf R * y.hi)
    rw [QE.add_hi, mul_add, trOf_add]
  tr_sq := by
    intro x
    show trOf (alpOf R * (x * x).hi) = trOf (alpOf R * x.hi)
    have hh : alpOf R * (x * x).hi =
        alpOf R * x.hi * (alpOf R * x.hi) +
          (alpOf R * (x.lo * x.hi) + alpOf R * (x.lo * x.hi)) := by
      rw [QE.mul_hi]
      ring
    rw [hh, trOf_add, trOf_sq, trOf_add, zmod2_add_self, add_zero]
  tr_alp := by
    show trOf (alpOf R * (1 : R)) = 1
    rw [mul_one]
    exact TowerAlg.tr_alp
  tr_alpInv := by
    show trOf (alpOf R * (1 : R)) = 1
    rw [mul_one]
    exact TowerAlg.tr_alp
  inv0 := qeInv
  inv0_zero := qeInv_zero
  mul_inv0 := qe_mul_qeInv
  zero_ne_one := by
    intro h
    exact TowerAlg.zero_ne_one (R := R) (congrArg QE.lo h)

instance instZMod2Tower : TowerAlg (ZMod 2) where
  alp := 1
  alpInv := 1
  alp_mul_alpInv := by decide
  two_eq_zero := by decide
  tr := id
  tr_add := by decide
  tr_sq := by decide
  tr_alp := by decide
  tr_alpInv := by decide
  inv0 := id
  inv0_zero := rfl
  mul_inv0 := by decide
  zero_ne_one := by decide

/-- The abstract binary tower of fields: level 0 is GF(2), level `L+1` the
quadratic extension of level `L` by `X² + α_L·X + 1`. -/
@[reducible]
def Tw : Nat → Type
  | 0 => ZMod 2
  | L + 1 => QE (Tw L)

/-- The tower-algebra data at every level. -/
def twTower : (L : Nat) → TowerAlg (Tw L)
  | 0 => instZMod2Tower
  | L + 1 =>
    letI := twTower L
    instQETower

instance instTwTower (L : Nat) : TowerAlg (Tw L) := twTower L

/-- Decode an abstract tower scalar into its `Nat` bit pattern. -/
def twToNat : (L : Nat) → Tw L → Nat
  | 0, x => ZMod.val x
  | L + 1, x => twToNat L x.lo + 2 ^ 2 ^ L * twToNat L x.hi

/-- Encode a `Nat` bit pattern (below `2^2^L`) as an abstract tower
scalar. -/
def twOfNat : (L : Nat) → Nat → Tw L
  | 0, n => (n : ZMod 2)
  | L + 1, n => ⟨twOfNat L (n % 2 ^ 2 ^ L), twOfNat L (n / 2 ^ 2 ^ L)⟩

/-! ## Theorems: arithmetic circuit -/

theorem degreesLoop_isSome {F : Type} :
    ∀ (exprs : List (AExpr F)) (ds : List Nat),
      (∀ i (h : i < exprs.length), okOperands (exprs.get ⟨i, h⟩) (ds.length + i)) →
      ∃ ds', degreesLoop exprs ds = some ds' ∧ ds'.length = ds.length + exprs.length
  | [], ds, _ => ⟨ds, rfl, by simp⟩
  | e :: rest, ds, hok => by
    have h0 : okOperands e ds.length := by
      have := hok 0 (by simp)
      simpa using this
    have hrest : ∀ d, ∀ i (h : i < rest.length),
        okOperands (rest.get ⟨i, h⟩) ((ds ++ [d]).length + i) := by
      intro d i h
      have := hok (i + 1) (by simpa using Nat.succ_lt_succ h)
      simpa [Nat.add_assoc, Nat.add_comm 1 i] using this
    cases e with
    | const c =>
      obtain ⟨ds', h1, h2⟩ := degreesLoop_isSome rest (ds ++ [0]) (hrest 0)
      exact ⟨ds', h1, by simpa [Nat.add_assoc, Nat.add_comm 1] using h2⟩
    | var i =>
      obtain ⟨ds', h1, h2⟩ := degreesLoop_isSome rest (ds ++ [1]) (hrest 1)
      exact ⟨ds', h1, by simpa [Nat.add_assoc, Nat.add_comm 1] using h2⟩
    | add x y =>
      have hx : x < ds.length ∧ y < ds.length := h0
      obtain ⟨ds', h1, h2⟩ := degreesLoop_isSome rest (ds ++ [_]) (hrest
        (max (ds.get ⟨x, hx.1⟩) (ds.get ⟨y, hx.2⟩)))
      exact ⟨ds', by simp only [degreesLoop, dif_pos hx]; exact h1,
        by simpa [Nat.add_assoc, Nat.add_comm 1] using h2⟩
    | mul x y =>
      have hx : x < ds.length ∧ y < ds.length := h0
      obtain ⟨ds', h1, h2⟩ := degreesLoop_isSome rest (ds ++ [_]) (hrest
        (ds.get ⟨x, hx.1⟩ + ds.get ⟨y, hx.2⟩))
      exact ⟨ds', by simp only [degreesLoop, dif_pos hx]; exact h1,
        by simpa [Nat.add_assoc, Nat.add_comm 1] using h2⟩
    | pow x n =>
      have hx : x < ds.length := h0
      obtain ⟨ds', h1, h2⟩ := degreesLoop_isSome rest (ds ++ [_]) (hrest
        (ds.get ⟨x, hx⟩ * n))
      exact ⟨ds', by simp only [degreesLoop, dif_pos hx]; exact h1,
        by simpa [Nat.add_assoc, Nat.add_comm 1] using h2⟩

/-- C8: `ArithCircuitPoly::new` panics exactly on the empty expression
vector; on any non-empty valid DAG it returns normally. -/
theorem arithNew_none_iff_or_valid {F : Type} (exprs : List (AExpr F))
    (hne : exprs ≠ []) (hdag : ValidDag exprs) :
    arithNew (F := F) [] = none ∧ (arithNew exprs).isSome := by
  constructor
  · rfl
  · obtain ⟨ds', h1, h2⟩ := degreesLoop_isSome exprs [] (by
      intro i h
      simpa using hdag i h)
    have hlen : ds' ≠ [] := by
      intro hnil
      rw [hnil] at h2
      simp at h2
      exact hne (List.length_eq_zero.mp h2.symm)
    obtain ⟨d, hd⟩ := List.getLast?_isSome.mpr hlen |> Option.isSome_iff_exists.mp
    simp [arithNew, h1, hd]

theorem arithNew_witness :
    ([AExpr.var (F := Nat) 0, AExpr.pow 0 2] ≠ []) ∧
      ValidDag [AExpr.var (F := Nat) 0, AExpr.pow 0 2] ∧
      (arithNew (F := Nat) [] = none ∧
        (arithNew [AExpr.var (F := Nat) 0, AExpr.pow 0 2]).isSome) := by
  refine ⟨by simp, ?_, ?_⟩
  · intro i h
    have h2 : i < 2 := by simpa using h
    interval_cases i <;> simp [okOperands]
  · exact arithNew_none_iff_or_valid _ (by simp) (by
      intro i h
      have h2 : i < 2 := by simpa using h
      interval_cases i <;> simp [okOperands])

theorem powAux_spec {M : Type} [CommMonoid M] (v : M) (e : Nat) :
    ∀ (k : Nat) (res : M), powAux v e k res = res ^ (2 ^ k) * v ^ (e % 2 ^ k)
  | 0, res => by simp [powAux, Nat.mod_one]
  | k + 1, res => by
    rw [powAux, powAux_spec v e k]
    have hsplit : e % 2 ^ (k + 1) = (if e.testBit k then 2 ^ k else 0) + e % 2 ^ k := by
      have h1 : e % 2 ^ (k + 1) = 2 ^ k * (e / 2 ^ k % 2) + e % 2 ^ k := by
        rw [pow_succ, Nat.mod_mul]
        exact Nat.add_comm _ _
      rw [h1, Nat.testBit_to_div_mod]
      rcases Nat.mod_two_eq_zero_or_one (e / 2 ^ k) with h | h <;> simp [h]
    have h2 : (2 : ℕ) ^ (k + 1) = 2 ^ k + 2 ^ k := by
      rw [pow_succ]
      omega
    rw [hsplit, h2]
    by_cases hb : e.testBit k <;>
      simp [hb, pow_add, mul_pow, mul_assoc, mul_comm, mul_left_comm]

/-- C9: the internal `pow` helper computes the `e`-fold product for any
64-bit exponent; in particular `pow(v, 0) = 1` for every `v`. -/
theorem powCode_eq_pow {M : Type} [CommMonoid M] (v : M) (e : Nat)
    (he : e < 2 ^ 64) : powCode v e = v ^ e ∧ powCode v 0 = 1 := by
  constructor
  · rw [powCode, powAux_spec, one_pow, one_mul, Nat.mod_eq_of_lt he]
  · rw [powCode, powAux_spec, one_pow, one_mul, Nat.zero_mod, pow_zero]

theorem powCode_witness :
    (5 < 2 ^ 64) ∧ (powCode (3 : ℕ) 5 = 3 ^ 5 ∧ powCode (3 : ℕ) 0 = 1) :=
  ⟨by norm_num, powCode_eq_pow 3 5 (by norm_num)⟩

/-- C7: for a circuit built by `new` (so that `n_vars` counts one scalar
per declared free variable), `evaluate` errors with
`IncorrectQuerySize { expected: n_vars }` exactly when the query length
differs from `n_vars`, and returns `Ok` with the DAG evaluation result
exactly when it matches. -/
theorem evaluateC_error_iff {F P : Type} [Zero P] [Add P] [Mul P] [One P]
    (bc : F → P) (exprs : List (AExpr F)) (d nv : Nat)
    (hnew : arithNew exprs = some (d, nv)) (query : List P) :
    (evaluateC bc ⟨exprs, d, nv⟩ query = .error (.incorrectQuerySize nv) ↔
      query.length ≠ nv) ∧
    (evaluateC bc ⟨exprs, d, nv⟩ query = .ok
        ((evalExprs bc query exprs []).getLastD 0) ↔
      query.length = nv) := by
  unfold evaluateC
  by_cases h : query.length = nv <;> simp [h]

theorem evaluateC_witness :
    (arithNew [AExpr.var (F := Nat) 0] = some (1, 1)) ∧
      ((evaluateC (id : Nat → Nat) ⟨[AExpr.var 0], 1, 1⟩ [7, 8] =
          .error (.incorrectQuerySize 1) ↔ ([7, 8] : List Nat).length ≠ 1) ∧
        (evaluateC (id : Nat → Nat) ⟨[AExpr.var 0], 1, 1⟩ [7, 8] =
            .ok ((evalExprs (id : Nat → Nat) [7, 8] [AExpr.var 0] []).getLastD 0) ↔
          ([7, 8] : List Nat).length = 1)) :=
  ⟨rfl, evaluateC_error_iff (id : Nat → Nat) [AExpr.var 0] 1 1 rfl [7, 8]⟩

/-! ## Theorems: bridging the abstract tower and the `Nat` encoding -/

theorem xor_mul_pow_add {m : Nat} (a b c d : Nat) (ha : a < 2 ^ m) (hb : b < 2 ^ m) :
    (a + 2 ^ m * c) ^^^ (b + 2 ^ m * d) = (a ^^^ b) + 2 ^ m * (c ^^^ d) := by
  apply Nat.eq_of_testBit_eq
  intro j
  rw [Nat.add_comm a, Nat.add_comm b, Nat.add_comm (a ^^^ b)]
  rw [Nat.testBit_xor, Nat.testBit_mul_pow_two_add _ ha,
    Nat.testBit_mul_pow_two_add _ hb,
    Nat.testBit_mul_pow_two_add _ (Nat.xor_lt_two_pow ha hb), Nat.testBit_xor]
  by_cases hj : j < m <;> simp [hj]

theorem twToNat_lt : ∀ (L : Nat) (x : Tw L), twToNat L x < 2 ^ 2 ^ L
  | 0, x => by simpa using ZMod.val_lt x
  | L + 1, x => by
    have h1 := twToNat_lt L x.hi
    have hpow : 2 ^ 2 ^ (L + 1) = 2 ^ 2 ^ L * 2 ^ 2 ^ L := by
      rw [← pow_add]
      congr 1
      omega
    rw [twToNat, hpow]
    calc twToNat L x.lo + 2 ^ 2 ^ L * twToNat L x.hi
        < 2 ^ 2 ^ L * (twToNat L x.hi + 1) := by
          have h0 := twToNat_lt L x.lo
          have hexp : 2 ^ 2 ^ L * (twToNat L x.hi + 1) =
              2 ^ 2 ^ L * twToNat L x.hi + 2 ^ 2 ^ L := by ring
          omega
      _ ≤ 2 ^ 2 ^ L * 2 ^ 2 ^ L := Nat.mul_le_mul_left _ h1

theorem twToNat_ofNat : ∀ (L n : Nat), n < 2 ^ 2 ^ L → twToNat L (twOfNat L n) = n
  | 0, n, h => by
    have : n < 2 := by simpa using h
    rw [twOfNat, twToNat, ZMod.val_natCast]
    omega
  | L + 1, n, h => by
    have hh : (0 : Nat) < 2 ^ 2 ^ L := Nat.pos_pow_of_pos _ (by omega)
    have hpow : 2 ^ 2 ^ (L + 1) = 2 ^ 2 ^ L * 2 ^ 2 ^ L := by
      rw [← pow_add]
      congr 1
      omega
    have hdiv : n / 2 ^ 2 ^ L < 2 ^ 2 ^ L := by
      apply Nat.div_lt_of_lt_mul
      rw [← hpow]
      exact h
    rw [twOfNat, twToNat]
    show twToNat L (twOfNat L (n % 2 ^ 2 ^ L)) +
      2 ^ 2 ^ L * twToNat L (twOfNat L (n / 2 ^ 2 ^ L)) = n
    rw [twToNat_ofNat L _ (Nat.mod_lt _ hh), twToNat_ofNat L _ hdiv]
    exact Nat.mod_add_div n _

theorem twToNat_zero : ∀ L : Nat, twToNat L (0 : Tw L) = 0
  | 0 => rfl
  | L + 1 => by
    show twToNat L (0 : Tw L) + 2 ^ 2 ^ L * twToNat L (0 : Tw L) = 0
    rw [twToNat_zero L]
    simp

theorem twToNat_one : ∀ L : Nat, twToNat L (1 : Tw L) = 1
  | 0 => rfl
  | L + 1 => by
    show twToNat L (1 : Tw L) + 2 ^ 2 ^ L * twToNat L (0 : Tw L) = 1
    rw [twToNat_zero L, twToNat_one L]
    simp

theorem twToNat_alp : ∀ L : Nat, twToNat L (alpOf (Tw L)) = alphaVal L
  | 0 => rfl
  | L + 1 => by
    show twToNat L (0 : Tw L) + 2 ^ 2 ^ L * twToNat L (1 : Tw L) = alphaVal (L + 1)
    rw [twToNat_zero L, twToNat_one L, alphaVal]
    simp

theorem twToNat_add : ∀ (L : Nat) (x y : Tw L),
    twToNat L (x + y) = twToNat L x ^^^ twToNat L y
  | 0, x, y => by revert x y; decide
  | L + 1, x, y => by
    show twToNat L (x.lo + y.lo) + 2 ^ 2 ^ L * twToNat L (x.hi + y.hi) = _
    rw [twToNat_add L, twToNat_add L]
    exact (xor_mul_pow_add _ _ _ _ (twToNat_lt L x.lo) (twToNat_lt L y.lo)).symm

theorem twToNat_mod {L : Nat} (x : Tw (L + 1)) :
    twToNat (L + 1) x % 2 ^ 2 ^ L = twToNat L x.lo := by
  show (twToNat L x.lo + 2 ^ 2 ^ L * twToNat L x.hi) % 2 ^ 2 ^ L = _
  rw [Nat.add_mul_mod_self_left]
  exact Nat.mod_eq_of_lt (twToNat_lt L x.lo)

theorem twToNat_div {L : Nat} (x : Tw (L + 1)) :
    twToNat (L + 1) x / 2 ^ 2 ^ L = twToNat L x.hi := by
  show (twToNat L x.lo + 2 ^ 2 ^ L * twToNat L x.hi) / 2 ^ 2 ^ L = _
  rw [Nat.add_mul_div_left _ _ (Nat.pos_pow_of_pos _ (by omega)),
    Nat.div_eq_of_lt (twToNat_lt L x.lo), Nat.zero_add]

theorem twToNat_mul : ∀ (L : Nat) (x y : Tw L),
    twToNat L (x * y) = tmul L (twToNat L x) (twToNat L y)
  | 0, x, y => by revert x y; decide
  | L + 1, x, y => by
    have hmul : twToNat (L + 1) (x * y) =
        twToNat L (x.lo * y.lo + x.hi * y.hi) +
          2 ^ 2 ^ L * twToNat L (x.lo * y.hi + x.hi * y.lo +
            alpOf (Tw L) * (x.hi * y.hi)) := rfl
    rw [hmul, tmul]
    rw [twToNat_mod x, twToNat_mod y, twToNat_div x, twToNat_div y]
    simp only [twToNat_add L, twToNat_mul L, twToNat_alp L]

theorem twToNat_inj : ∀ (L : Nat) (x y : Tw L), twToNat L x = twToNat L y → x = y
  | 0, x, y => by revert x y; decide
  | L + 1, x, y => by
    intro h
    have hlo : twToNat L x.lo = twToNat L y.lo := by
      have := congrArg (fun n => n % 2 ^ 2 ^ L) h
      simpa [twToNat_mod] using this
    have hhi : twToNat L x.hi = twToNat L y.hi := by
      have := congrArg (fun n => n / 2 ^ 2 ^ L) h
      simpa [twToNat_div] using this
    ext
    · exact twToNat_inj L _ _ hlo
    · exact twToNat_inj L _ _ hhi

theorem twOfNat_zero : ∀ L : Nat, twOfNat L 0 = (0 : Tw L)
  | 0 => rfl
  | L + 1 => by
    rw [twOfNat, Nat.zero_mod, Nat.zero_div, twOfNat_zero L]
    ext <;> rfl

theorem twToNat_inv : ∀ (L : Nat) (x : Tw L), twToNat L (invOf x) = sinv L (twToNat L x)
  | 0, x => by revert x; decide
  | L + 1, x => by
    have hqe : invOf x = qeInv x := rfl
    rw [hqe, sinv, twToNat_mod x, twToNat_div x]
    have h1 : twToNat (L + 1) (qeInv x) =
        twToNat L ((qeInv x).lo) + 2 ^ 2 ^ L * twToNat L ((qeInv x).hi) := rfl
    rw [h1]
    simp only [qeInv]
    simp only [twToNat_inv L, twToNat_mul L, twToNat_add L, twToNat_alp L]

theorem twOfNat_toNat (L : Nat) (x : Tw L) : twOfNat L (twToNat L x) = x :=
  twToNat_inj _ _ _ (twToNat_ofNat _ _ (twToNat_lt _ _))

theorem tmul_eq_toNat (L a b : Nat) (ha : a < 2 ^ 2 ^ L) (hb : b < 2 ^ 2 ^ L) :
    tmul L a b = twToNat L (twOfNat L a * twOfNat L b) := by
  rw [twToNat_mul, twToNat_ofNat _ _ ha, twToNat_ofNat _ _ hb]

theorem tmul_lt (L a b : Nat) (ha : a < 2 ^ 2 ^ L) (hb : b < 2 ^ 2 ^ L) :
    tmul L a b < 2 ^ 2 ^ L := by
  rw [tmul_eq_toNat L a b ha hb]
  exact twToNat_lt _ _

theorem tmul_comm (L a b : Nat) (ha : a < 2 ^ 2 ^ L) (hb : b < 2 ^ 2 ^ L) :
    tmul L a b = tmul L b a := by
  rw [tmul_eq_toNat L a b ha hb, tmul_eq_toNat L b a hb ha, mul_comm]

theorem tmul_one_left (L a : Nat) (ha : a < 2 ^ 2 ^ L) : tmul L 1 a = a := by
  have h1 : (1 : Nat) < 2 ^ 2 ^ L := Nat.one_lt_two_pow (by positivity)
  rw [tmul_eq_toNat L 1 a h1 ha]
  have : twOfNat L 1 = (1 : Tw L) := by
    apply twToNat_inj
    rw [twToNat_ofNat _ _ h1, twToNat_one]
  rw [this, one_mul, twToNat_ofNat _ _ ha]

theorem tmul_zero_left (L a : Nat) (ha : a < 2 ^ 2 ^ L) : tmul L 0 a = 0 := by
  have h0 : (0 : Nat) < 2 ^ 2 ^ L := by positivity
  rw [tmul_eq_toNat L 0 a h0 ha, twOfNat_zero, zero_mul, twToNat_zero]

theorem tmul_zero_right (L a : Nat) (ha : a < 2 ^ 2 ^ L) : tmul L a 0 = 0 := by
  have h0 : (0 : Nat) < 2 ^ 2 ^ L := by positivity
  rw [tmul_eq_toNat L a 0 ha h0, twOfNat_zero, mul_zero, twToNat_zero]

/-- The Karatsuba identity used by the packed multiplier: the middle
product of the sums equals the cross terms plus the two outer products. -/
theorem tmul_karatsuba (L a0 a1 b0 b1 : Nat)
    (ha0 : a0 < 2 ^ 2 ^ L) (ha1 : a1 < 2 ^ 2 ^ L)
    (hb0 : b0 < 2 ^ 2 ^ L) (hb1 : b1 < 2 ^ 2 ^ L) :
    tmul L (a0 ^^^ a1) (b0 ^^^ b1) =
      tmul L a0 b0 ^^^ (tmul L a0 b1 ^^^ tmul L a1 b0) ^^^ tmul L a1 b1 := by
  have hx := Nat.xor_lt_two_pow ha0 ha1
  have hy := Nat.xor_lt_two_pow hb0 hb1
  have hadd : ∀ (x y : Tw L), twToNat L x ^^^ twToNat L y = twToNat L (x + y) :=
    fun x y => (twToNat_add L x y).symm
  have hxor : (a0 ^^^ a1) = twToNat L (twOfNat L a0 + twOfNat L a1) := by
    rw [twToNat_add, twToNat_ofNat _ _ ha0, twToNat_ofNat _ _ ha1]
  have hyor : (b0 ^^^ b1) = twToNat L (twOfNat L b0 + twOfNat L b1) := by
    rw [twToNat_add, twToNat_ofNat _ _ hb0, twToNat_ofNat _ _ hb1]
  rw [hxor, hyor, ← twToNat_mul,
    tmul_eq_toNat L a0 b0 ha0 hb0, tmul_eq_toNat L a0 b1 ha0 hb1,
    tmul_eq_toNat L a1 b0 ha1 hb0, tmul_eq_toNat L a1 b1 ha1 hb1,
    hadd, hadd, hadd]
  congr 1
  ring

theorem sinv_eq_toNat (L a : Nat) (ha : a < 2 ^ 2 ^ L) :
    sinv L a = twToNat L (invOf (twOfNat L a)) := by
  rw [twToNat_inv, twToNat_ofNat _ _ ha]

theorem sinv_lt (L a : Nat) (ha : a < 2 ^ 2 ^ L) : sinv L a < 2 ^ 2 ^ L := by
  rw [sinv_eq_toNat L a ha]
  exact twToNat_lt _ _

theorem sinv_zero (L : Nat) : sinv L 0 = 0 := by
  have h0 : (0 : Nat) < 2 ^ 2 ^ L := by positivity
  rw [sinv_eq_toNat L 0 h0, twOfNat_zero]
  have : invOf (0 : Tw L) = 0 := TowerAlg.inv0_zero
  rw [this, twToNat_zero]

/-- Scalar inversion correctness at every level, transported from the
abstract tower: every nonzero scalar times its inverse is one. -/
theorem tmul_sinv (L a : Nat) (ha : a < 2 ^ 2 ^ L) (hne : a ≠ 0) :
    tmul L a (sinv L a) = 1 := by
  have hx : twOfNat L a ≠ 0 := by
    intro h
    exact hne (by rw [← twToNat_ofNat L a ha, h, twToNat_zero])
  have hinv : twOfNat L a * invOf (twOfNat L a) = 1 :=
    TowerAlg.mul_inv0 _ hx
  have hb : twToNat L (invOf (twOfNat L a)) < 2 ^ 2 ^ L := twToNat_lt _ _
  calc tmul L a (sinv L a)
      = twToNat L (twOfNat L a * invOf (twOfNat L a)) := by
        rw [sinv_eq_toNat L a ha, tmul_eq_toNat L a _ ha hb, twOfNat_toNat]
    _ = 1 := by rw [hinv, twToNat_one]

/-! ## Theorems: lanes, masks and the interleave primitive -/

theorem lane_testBit (L i u r : Nat) :
    (lane L i u).testBit r = (decide (r < 2 ^ L) && u.testBit (i * 2 ^ L + r)) := by
  rw [lane, Nat.testBit_mod_two_pow, Nat.testBit_shiftRight]

theorem lane_lt (L i u : Nat) : lane L i u < 2 ^ 2 ^ L :=
  Nat.mod_lt _ (by positivity)

theorem lane_xor (L i a b : Nat) :
    lane L i (a ^^^ b) = lane L i a ^^^ lane L i b := by
  apply Nat.eq_of_testBit_eq
  intro r
  simp only [lane_testBit, Nat.testBit_xor]
  by_cases h : r < 2 ^ L <;> simp [h]

theorem lane_and (L i a b : Nat) :
    lane L i (a &&& b) = lane L i a &&& lane L i b := by
  apply Nat.eq_of_testBit_eq
  intro r
  simp only [lane_testBit, Nat.testBit_and]
  by_cases h : r < 2 ^ L <;> simp [h]

theorem lane_or (L i a b : Nat) :
    lane L i (a ||| b) = lane L i a ||| lane L i b := by
  apply Nat.eq_of_testBit_eq
  intro r
  simp only [lane_testBit, Nat.testBit_or]
  by_cases h : r < 2 ^ L <;> simp [h]

theorem lane_pos_mod (L i r : Nat) (hr : r < 2 ^ L) :
    (i * 2 ^ L + r) % 2 ^ (L + 1) = i % 2 * 2 ^ L + r := by
  have hsmall : i % 2 * 2 ^ L + r < 2 ^ (L + 1) := by
    have h2 : i % 2 < 2 := Nat.mod_lt _ (by omega)
    have : i % 2 * 2 ^ L ≤ 2 ^ L := by
      calc i % 2 * 2 ^ L ≤ 1 * 2 ^ L := Nat.mul_le_mul_right _ (by omega)
        _ = 2 ^ L := by omega
    have hp : 2 ^ (L + 1) = 2 ^ L + 2 ^ L := by
      rw [pow_succ]
      omega
    omega
  have hi : i * 2 ^ L + r = 2 ^ (L + 1) * (i / 2) + (i % 2 * 2 ^ L + r) := by
    have h2 : i = 2 * (i / 2) + i % 2 := by omega
    calc i * 2 ^ L + r = (2 * (i / 2) + i % 2) * 2 ^ L + r := by rw [← h2]
      _ = 2 ^ (L + 1) * (i / 2) + (i % 2 * 2 ^ L + r) := by
          rw [pow_succ]
          ring
  rw [hi, Nat.mul_add_mod, Nat.mod_eq_of_lt hsmall]

theorem lane_pos_lt_iff (K L i r : Nat) (hLK : L ≤ K) (hr : r < 2 ^ L) :
    (i * 2 ^ L + r < 2 ^ K) ↔ i < 2 ^ (K - L) := by
  have hsplit : 2 ^ K = 2 ^ (K - L) * 2 ^ L := by
    rw [← pow_add]
    congr 1
    omega
  constructor
  · intro h
    by_contra hge
    push_neg at hge
    have : 2 ^ (K - L) * 2 ^ L ≤ i * 2 ^ L := Nat.mul_le_mul_right _ hge
    omega
  · intro h
    have h1 : (i + 1) * 2 ^ L ≤ 2 ^ (K - L) * 2 ^ L := Nat.mul_le_mul_right _ h
    have h2 : i * 2 ^ L + r < (i + 1) * 2 ^ L := by
      have : (i + 1) * 2 ^ L = i * 2 ^ L + 2 ^ L := by ring
      omega
    omega

theorem alphaVal_lt (L : Nat) : alphaVal L < 2 ^ 2 ^ L := by
  cases L with
  | zero => decide
  | succ M =>
    rw [alphaVal]
    exact Nat.pow_lt_pow_right (by omega) (Nat.pow_lt_pow_right (by omega) (by omega))

theorem spreadFrom_testBit (L : Nat) :
    ∀ (fuel i x : Nat), x < 2 ^ 2 ^ (L + i) → ∀ j,
      (spreadFrom L x i fuel).testBit j =
        (decide (j < 2 ^ (L + i + fuel)) && x.testBit (j % 2 ^ (L + i)))
  | 0, i, x, hx, j => by
    rw [spreadFrom]
    by_cases hj : j < 2 ^ (L + i)
    · rw [Nat.mod_eq_of_lt hj]
      simp [Nat.lt_of_lt_of_le hj (le_refl _), hj]
    · push_neg at hj
      have hxj : x.testBit j = false := Nat.testBit_lt_two_pow
        (Nat.lt_of_lt_of_le hx (Nat.pow_le_pow_right (by omega) hj))
      simp [Nat.not_lt_of_le hj, hxj]
  | fuel + 1, i, x, hx, j => by
    rw [spreadFrom]
    have hx' : x ||| x <<< 2 ^ (L + i) < 2 ^ 2 ^ (L + i + 1) := by
      have hpow : 2 ^ 2 ^ (L + i + 1) = 2 ^ 2 ^ (L + i) * 2 ^ 2 ^ (L + i) := by
        rw [← pow_add]
        congr 1
        omega
      apply Nat.or_lt_two_pow
      · exact Nat.lt_of_lt_of_le hx (by
          rw [hpow]
          exact Nat.le_mul_of_pos_right _ (by positivity))
      · rw [Nat.shiftLeft_eq, hpow]
        exact mul_lt_mul_of_pos_right hx (by positivity)
    have hIH := spreadFrom_testBit L fuel (i + 1) _ (by
      have : L + (i + 1) = L + i + 1 := by omega
      rw [this]
      exact hx') j
    rw [hIH]
    have harr : L + (i + 1) + fuel = L + i + (fuel + 1) := by omega
    have harr2 : L + (i + 1) = L + i + 1 := by omega
    rw [harr, harr2]
    by_cases hj : j < 2 ^ (L + i + (fuel + 1))
    · have hjd : decide (j < 2 ^ (L + i + (fuel + 1))) = true := decide_eq_true hj
      simp only [hjd, Bool.true_and]
      have hm : j % 2 ^ (L + i + 1) < 2 ^ (L + i + 1) := Nat.mod_lt _ (by positivity)
      have hmm : j % 2 ^ (L + i + 1) % 2 ^ (L + i) = j % 2 ^ (L + i) := by
        apply Nat.mod_mod_of_dvd
        exact pow_dvd_pow 2 (by omega)
      rw [Nat.testBit_or, Nat.testBit_shiftLeft]
      by_cases hlt : j % 2 ^ (L + i + 1) < 2 ^ (L + i)
      · have hnot : ¬ (2 ^ (L + i) ≤ j % 2 ^ (L + i + 1)) := by omega
        rw [← hmm, Nat.mod_eq_of_lt hlt]
        simp [hnot]
      · push_neg at hlt
        have hxf : x.testBit (j % 2 ^ (L + i + 1)) = false :=
          Nat.testBit_lt_two_pow (Nat.lt_of_lt_of_le hx
            (Nat.pow_le_pow_right (by omega) hlt))
        have hsub : j % 2 ^ (L + i + 1) - 2 ^ (L + i) = j % 2 ^ (L + i) := by
          have hp : 2 ^ (L + i + 1) = 2 ^ (L + i) + 2 ^ (L + i) := by
            rw [pow_succ]
            omega
          have hfin : (j % 2 ^ (L + i + 1) - 2 ^ (L + i)) % 2 ^ (L + i) =
              j % 2 ^ (L + i + 1) - 2 ^ (L + i) :=
            Nat.mod_eq_of_lt (by omega)
          rw [← hmm, Nat.mod_eq_sub_mod hlt, hfin]
        rw [hxf, hsub]
        simp [hlt]
    · simp [hj]

theorem evenMask_testBit (K L : Nat) (hLK : L < K) (j : Nat) :
    (evenMask K L).testBit j =
      (decide (j < 2 ^ K) && decide (j % 2 ^ (L + 1) < 2 ^ L)) := by
  have hinit : 2 ^ 2 ^ L - 1 < 2 ^ 2 ^ (L + 1) := by
    have : (2 : Nat) ^ 2 ^ L ≤ 2 ^ 2 ^ (L + 1) :=
      Nat.pow_le_pow_right (by omega) (Nat.pow_le_pow_right (by omega) (by omega))
    have hpos : (0 : Nat) < 2 ^ 2 ^ L := by positivity
    omega
  rw [evenMask, spreadFrom_testBit L (K - L - 1) 1 _ hinit j]
  have harr : L + 1 + (K - L - 1) = K := by omega
  rw [harr, Nat.testBit_two_pow_sub_one]

theorem alphasU_testBit (K L : Nat) (hLK : L < K) (j : Nat) :
    (alphasU K L).testBit j =
      (decide (j < 2 ^ K) && (alphaVal L).testBit (j % 2 ^ (L + 1))) := by
  have hinit : alphaVal L < 2 ^ 2 ^ (L + 1) :=
    Nat.lt_of_lt_of_le (alphaVal_lt L)
      (Nat.pow_le_pow_right (by omega) (Nat.pow_le_pow_right (by omega) (by omega)))
  rw [alphasU, spreadFrom_testBit L (K - L - 1) 1 _ hinit j]
  have harr : L + 1 + (K - L - 1) = K := by omega
  rw [harr]

theorem lane_evenMask (K L i : Nat) (hLK : L < K) (hi : i < 2 ^ (K - L)) :
    lane L i (evenMask K L) = if i % 2 = 0 then 2 ^ 2 ^ L - 1 else 0 := by
  apply Nat.eq_of_testBit_eq
  intro r
  by_cases hr : r < 2 ^ L
  · rw [lane_testBit, evenMask_testBit K L hLK]
    have hpos := (lane_pos_lt_iff K L i r (le_of_lt hLK) hr).mpr hi
    rw [lane_pos_mod L i r hr]
    rcases Nat.mod_two_eq_zero_or_one i with h2 | h2
    · rw [h2]
      simp [hr, hpos, Nat.testBit_two_pow_sub_one]
    · rw [h2]
      have hbig : ¬ (2 ^ L + r < 2 ^ L) := by omega
      simp [hr, hpos, hbig]
  · rw [lane_testBit]
    rcases Nat.mod_two_eq_zero_or_one i with h2 | h2
    · rw [if_pos h2, Nat.testBit_two_pow_sub_one]
      simp [hr]
    · rw [if_neg (by omega)]
      simp [hr]

theorem lane_alphasU (K L i : Nat) (hLK : L ≤ K) (hi : i < 2 ^ (K - L)) :
    lane L i (alphasU K L) = if i % 2 = 0 then alphaVal L else 0 := by
  rcases Nat.lt_or_ge L K with hlt | hge
  · apply Nat.eq_of_testBit_eq
    intro r
    by_cases hr : r < 2 ^ L
    · rw [lane_testBit, alphasU_testBit K L hlt]
      have hpos := (lane_pos_lt_iff K L i r hLK hr).mpr hi
      rw [lane_pos_mod L i r hr]
      rcases Nat.mod_two_eq_zero_or_one i with h2 | h2
      · rw [h2]
        simp [hr, hpos]
      · rw [h2]
        have hbit : (alphaVal L).testBit (2 ^ L + r) = false :=
          Nat.testBit_lt_two_pow (Nat.lt_of_lt_of_le (alphaVal_lt L)
            (Nat.pow_le_pow_right (by omega) (by omega)))
        simp [hr, hpos, hbit]
    · rw [lane_testBit]
      rcases Nat.mod_two_eq_zero_or_one i with h2 | h2
      · rw [if_pos h2]
        have hbit : (alphaVal L).testBit r = false :=
          Nat.testBit_lt_two_pow (Nat.lt_of_lt_of_le (alphaVal_lt L)
            (Nat.pow_le_pow_right (by omega) (by omega)))
        simp [hr, hbit]
      · rw [if_neg (by omega)]
        simp [hr]
  · obtain rfl : K = L := by omega
    have hi0 : i = 0 := by
      have hz : K - K = 0 := by omega
      rw [hz] at hi
      omega
    have hfuel : K - K - 1 = 0 := by omega
    rw [hi0, alphasU, hfuel, spreadFrom, lane]
    rw [Nat.zero_mul, Nat.shiftRight_zero, Nat.mod_eq_of_lt (alphaVal_lt K)]
    simp

theorem and_ones_of_lt {x m : Nat} (hx : x < 2 ^ m) : x &&& (2 ^ m - 1) = x :=
  Nat.and_pow_two_sub_one_of_lt_two_pow hx

theorem lane_and_evenMask (K L u i : Nat) (hLK : L < K) (hi : i < 2 ^ (K - L)) :
    lane L i (u &&& evenMask K L) = if i % 2 = 0 then lane L i u else 0 := by
  rw [lane_and, lane_evenMask K L i hLK hi]
  rcases Nat.mod_two_eq_zero_or_one i with h2 | h2
  · rw [if_pos h2, if_pos h2, and_ones_of_lt (lane_lt L i u)]
  · rw [if_neg (by omega), if_neg (by omega), Nat.and_zero]

theorem lane_shiftRight (L j u : Nat) : lane L j (u >>> 2 ^ L) = lane L (j + 1) u := by
  rw [lane, lane, ← Nat.shiftRight_add]
  have : 2 ^ L + j * 2 ^ L = (j + 1) * 2 ^ L := by ring
  rw [this]

theorem lane_shiftLeft_zero (K L u : Nat) :
    lane L 0 ((u <<< 2 ^ L) % 2 ^ 2 ^ K) = 0 := by
  apply Nat.eq_of_testBit_eq
  intro r
  rw [lane_testBit, Nat.testBit_mod_two_pow, Nat.testBit_shiftLeft]
  by_cases hr : r < 2 ^ L
  · have hd : decide (2 ^ L ≤ 0 * 2 ^ L + r) = false := decide_eq_false (by omega)
    rw [hd]
    simp
  · simp [hr]

theorem lane_shiftLeft_succ (K L j u : Nat) (hLK : L ≤ K) (hj : j + 1 < 2 ^ (K - L)) :
    lane L (j + 1) ((u <<< 2 ^ L) % 2 ^ 2 ^ K) = lane L j u := by
  apply Nat.eq_of_testBit_eq
  intro r
  rw [lane_testBit, lane_testBit, Nat.testBit_mod_two_pow, Nat.testBit_shiftLeft]
  by_cases hr : r < 2 ^ L
  · have hpos := (lane_pos_lt_iff K L (j + 1) r hLK hr).mpr hj
    have hK : (j + 1) * 2 ^ L + r < 2 ^ 2 ^ K := by
      have h1 : (2 : Nat) ^ K ≤ 2 ^ 2 ^ K :=
        Nat.pow_le_pow_right (by omega) (Nat.lt_two_pow K).le
      omega
    have hge : 2 ^ L ≤ (j + 1) * 2 ^ L + r := by
      have : 2 ^ L ≤ (j + 1) * 2 ^ L := Nat.le_mul_of_pos_left _ (by omega)
      omega
    have hsub : (j + 1) * 2 ^ L + r - 2 ^ L = j * 2 ^ L + r := by
      have : (j + 1) * 2 ^ L = j * 2 ^ L + 2 ^ L := by ring
      omega
    simp [hr, hge, hsub, hpos, hK]
  · simp [hr]

theorem lane_oddMask (K L i : Nat) (hLK : L < K) (hi : i < 2 ^ (K - L)) :
    lane L i (oddMask K L) = if i % 2 = 1 then 2 ^ 2 ^ L - 1 else 0 := by
  cases i with
  | zero =>
    rw [oddMask, lane_shiftLeft_zero K L _]
    simp
  | succ j =>
    rw [oddMask, lane_shiftLeft_succ K L j _ (le_of_lt hLK) hi,
      lane_evenMask K L j hLK (by omega)]
    rcases Nat.mod_two_eq_zero_or_one j with h2 | h2
    · rw [if_pos h2, if_pos (by omega)]
    · rw [if_neg (by omega), if_neg (by omega)]

theorem lane_and_oddMask (K L u i : Nat) (hLK : L < K) (hi : i < 2 ^ (K - L)) :
    lane L i (u &&& oddMask K L) = if i % 2 = 1 then lane L i u else 0 := by
  rw [lane_and, lane_oddMask K L i hLK hi]
  rcases Nat.mod_two_eq_zero_or_one i with h2 | h2
  · rw [if_neg (by omega), if_neg (by omega), Nat.and_zero]
  · rw [if_pos h2, if_pos h2, and_ones_of_lt (lane_lt L i u)]

theorem eq_of_lane_eq (K L a b : Nat) (hLK : L ≤ K)
    (ha : a < 2 ^ 2 ^ K) (hb : b < 2 ^ 2 ^ K)
    (h : ∀ i, i < 2 ^ (K - L) → lane L i a = lane L i b) : a = b := by
  apply Nat.eq_of_testBit_eq
  intro j
  by_cases hj : j < 2 ^ K
  · have hr : j % 2 ^ L < 2 ^ L := Nat.mod_lt _ (by positivity)
    have hsplit : 2 ^ K = 2 ^ (K - L) * 2 ^ L := by
      rw [← pow_add]
      congr 1
      omega
    have hdiv : j / 2 ^ L < 2 ^ (K - L) := by
      apply Nat.div_lt_of_lt_mul
      rw [Nat.mul_comm, ← hsplit]
      exact hj
    have hpos : j / 2 ^ L * 2 ^ L + j % 2 ^ L = j := by
      rw [Nat.mul_comm]
      exact Nat.div_add_mod j _
    have hla := congrArg (fun n => n.testBit (j % 2 ^ L)) (h (j / 2 ^ L) hdiv)
    simp only [lane_testBit, hpos] at hla
    simpa [hr] using hla
  · rw [Nat.testBit_lt_two_pow, Nat.testBit_lt_two_pow]
    · exact Nat.lt_of_lt_of_le hb (Nat.pow_le_pow_right (by omega) (by omega))
    · exact Nat.lt_of_lt_of_le ha (Nat.pow_le_pow_right (by omega) (by omega))

theorem evenMask_lt (K L : Nat) (hLK : L < K) : evenMask K L < 2 ^ 2 ^ K := by
  apply Nat.lt_pow_two_of_testBit
  intro j hj
  rw [evenMask_testBit K L hLK]
  have : ¬ (j < 2 ^ K) := by
    have := Nat.lt_two_pow K
    omega
  simp [this]

theorem two_pow_sub_even (K L : Nat) (hLK : L < K) :
    2 ^ (K - L) = 2 * 2 ^ (K - L - 1) := by
  have h1 : K - L = (K - L - 1) + 1 := by omega
  calc 2 ^ (K - L) = 2 ^ ((K - L - 1) + 1) := by rw [← h1]
    _ = 2 * 2 ^ (K - L - 1) := by rw [pow_succ]; ring

theorem lane_t_even (K L a b j : Nat) (hLK : L < K) (hj : j < 2 ^ (K - L))
    (hjm : j % 2 = 0) :
    lane L j (((a >>> 2 ^ L) ^^^ b) &&& evenMask K L) =
      lane L (j + 1) a ^^^ lane L j b := by
  rw [lane_and_evenMask K L _ _ hLK hj, if_pos hjm, lane_xor, lane_shiftRight]

theorem lane_t_odd (K L a b j : Nat) (hLK : L < K) (hj : j < 2 ^ (K - L))
    (hjm : j % 2 = 1) :
    lane L j (((a >>> 2 ^ L) ^^^ b) &&& evenMask K L) = 0 := by
  rw [lane_and_evenMask K L _ _ hLK hj, if_neg (by omega)]

theorem lane_shifted_t_zero (K L t : Nat) (hLK : L < K)
    (ht : ∀ j, j % 2 = 1 → j < 2 ^ (K - L) → lane L j t = 0) :
    ∀ i, 2 * i < 2 ^ (K - L) →
      lane L (2 * i) ((t <<< 2 ^ L) % 2 ^ 2 ^ K) = 0 := by
  intro i hi
  cases i with
  | zero =>
    show lane L (2 * 0) _ = 0
    rw [Nat.mul_zero, lane_shiftLeft_zero]
  | succ m =>
    have h1 : 2 * (m + 1) = (2 * m + 1) + 1 := by omega
    rw [h1, lane_shiftLeft_succ K L (2 * m + 1) _ (le_of_lt hLK) (by omega)]
    exact ht (2 * m + 1) (by omega) (by omega)

/-- Lane behaviour of the free `interleave` function: it transposes the
2×2 lane blocks of its arguments. -/
theorem interleave_lane (K L a b i : Nat) (hLK : L < K)
    (hi : 2 * i + 1 < 2 ^ (K - L)) :
    lane L (2 * i) (interleaveU K L a b).1 = lane L (2 * i) a ∧
    lane L (2 * i + 1) (interleaveU K L a b).1 = lane L (2 * i) b ∧
    lane L (2 * i) (interleaveU K L a b).2 = lane L (2 * i + 1) a ∧
    lane L (2 * i + 1) (interleaveU K L a b).2 = lane L (2 * i + 1) b := by
  have hfst : (interleaveU K L a b).1 =
      a ^^^ ((((a >>> 2 ^ L) ^^^ b) &&& evenMask K L) <<< 2 ^ L) % 2 ^ 2 ^ K := rfl
  have hsnd : (interleaveU K L a b).2 =
      b ^^^ (((a >>> 2 ^ L) ^^^ b) &&& evenMask K L) := rfl
  have htodd : ∀ j, j % 2 = 1 → j < 2 ^ (K - L) →
      lane L j (((a >>> 2 ^ L) ^^^ b) &&& evenMask K L) = 0 :=
    fun j h1 h2 => lane_t_odd K L a b j hLK h2 h1
  refine ⟨?_, ?_, ?_, ?_⟩
  · rw [hfst, lane_xor, lane_shifted_t_zero K L _ hLK htodd i (by omega), Nat.xor_zero]
  · rw [hfst, lane_xor]
    have h1 : 2 * i + 1 = (2 * i) + 1 := rfl
    rw [h1, lane_shiftLeft_succ K L (2 * i) _ (le_of_lt hLK) hi,
      lane_t_even K L a b (2 * i) hLK (by omega) (by omega)]
    rw [← Nat.xor_assoc, Nat.xor_self, Nat.zero_xor]
  · rw [hsnd, lane_xor, lane_t_even K L a b (2 * i) hLK (by omega) (by omega),
      Nat.xor_comm (lane L (2 * i + 1) a) (lane L (2 * i) b),
      ← Nat.xor_assoc, Nat.xor_self, Nat.zero_xor]
  · rw [hsnd, lane_xor, htodd (2 * i + 1) (by omega) hi, Nat.xor_zero]

/-- Lane behaviour of `xor_adjacent`: the XOR of each adjacent lane pair in
both positions. -/
theorem xorAdjacent_lane (K L a i : Nat) (hLK : L < K) (hi : 2 * i + 1 < 2 ^ (K - L)) :
    lane L (2 * i) (xorAdjacent K L a) = lane L (2 * i) a ^^^ lane L (2 * i + 1) a ∧
    lane L (2 * i + 1) (xorAdjacent K L a) = lane L (2 * i) a ^^^ lane L (2 * i + 1) a := by
  have hx : xorAdjacent K L a =
      (((a >>> 2 ^ L) ^^^ a) &&& evenMask K L) ^^^
        (((((a >>> 2 ^ L) ^^^ a) &&& evenMask K L) <<< 2 ^ L) % 2 ^ 2 ^ K) := rfl
  have htodd : ∀ j, j % 2 = 1 → j < 2 ^ (K - L) →
      lane L j (((a >>> 2 ^ L) ^^^ a) &&& evenMask K L) = 0 :=
    fun j h1 h2 => lane_t_odd K L a a j hLK h2 h1
  constructor
  · rw [hx, lane_xor, lane_shifted_t_zero K L _ hLK htodd i (by omega), Nat.xor_zero,
      lane_t_even K L a a (2 * i) hLK (by omega) (by omega), Nat.xor_comm]
  · rw [hx, lane_xor, htodd (2 * i + 1) (by omega) hi, Nat.zero_xor]
    have h1 : 2 * i + 1 = (2 * i) + 1 := rfl
    rw [h1, lane_shiftLeft_succ K L (2 * i) _ (le_of_lt hLK) hi,
      lane_t_even K L a a (2 * i) hLK (by omega) (by omega), Nat.xor_comm]

theorem interleave_fst_lt (K L a b : Nat) (ha : a < 2 ^ 2 ^ K) :
    (interleaveU K L a b).1 < 2 ^ 2 ^ K := by
  have h : (interleaveU K L a b).1 =
      a ^^^ ((((a >>> 2 ^ L) ^^^ b) &&& evenMask K L) <<< 2 ^ L) % 2 ^ 2 ^ K := rfl
  rw [h]
  exact Nat.xor_lt_two_pow ha (Nat.mod_lt _ (by positivity))

theorem interleave_snd_lt (K L a b : Nat) (hLK : L < K) (hb : b < 2 ^ 2 ^ K) :
    (interleaveU K L a b).2 < 2 ^ 2 ^ K := by
  have h : (interleaveU K L a b).2 =
      b ^^^ (((a >>> 2 ^ L) ^^^ b) &&& evenMask K L) := rfl
  rw [h]
  exact Nat.xor_lt_two_pow hb (Nat.and_lt_two_pow _ (evenMask_lt K L hLK))

theorem xorAdjacent_lt (K L a : Nat) (hLK : L < K) : xorAdjacent K L a < 2 ^ 2 ^ K :=
  Nat.xor_lt_two_pow (Nat.and_lt_two_pow _ (evenMask_lt K L hLK))
    (Nat.mod_lt _ (by positivity))

/-- The interleave transpose is an involution on packed vectors. -/
theorem interleave_interleave (K L a b : Nat) (hLK : L < K)
    (ha : a < 2 ^ 2 ^ K) (hb : b < 2 ^ 2 ^ K) :
    interleaveU K L (interleaveU K L a b).1 (interleaveU K L a b).2 = (a, b) := by
  have hc := interleave_fst_lt K L a b ha
  have hd := interleave_snd_lt K L a b hLK hb
  have heven := two_pow_sub_even K L hLK
  apply Prod.ext
  · show (interleaveU K L (interleaveU K L a b).1 (interleaveU K L a b).2).1 = a
    apply eq_of_lane_eq K L _ _ (le_of_lt hLK) (interleave_fst_lt K L _ _ hc) ha
    intro i hiK
    have hiq : 2 * (i / 2) + 1 < 2 ^ (K - L) := by omega
    have hlane := interleave_lane K L a b (i / 2) hLK hiq
    have hlane2 := interleave_lane K L (interleaveU K L a b).1
      (interleaveU K L a b).2 (i / 2) hLK hiq
    rcases Nat.mod_two_eq_zero_or_one i with h2 | h2
    · have hieq : i = 2 * (i / 2) := by omega
      rw [hieq, hlane2.1, hlane.1]
    · have hieq : i = 2 * (i / 2) + 1 := by omega
      rw [hieq, hlane2.2.1, hlane.2.2.1]
  · show (interleaveU K L (interleaveU K L a b).1 (interleaveU K L a b).2).2 = b
    apply eq_of_lane_eq K L _ _ (le_of_lt hLK) (interleave_snd_lt K L _ _ hLK hd) hb
    intro i hiK
    have hiq : 2 * (i / 2) + 1 < 2 ^ (K - L) := by omega
    have hlane := interleave_lane K L a b (i / 2) hLK hiq
    have hlane2 := interleave_lane K L (interleaveU K L a b).1
      (interleaveU K L a b).2 (i / 2) hLK hiq
    rcases Nat.mod_two_eq_zero_or_one i with h2 | h2
    · have hieq : i = 2 * (i / 2) := by omega
      rw [hieq, hlane2.2.2.1, hlane.2.1]
    · have hieq : i = 2 * (i / 2) + 1 := by omega
      rw [hieq, hlane2.2.2.2, hlane.2.2.2]

theorem repLanes_testBit (L x : Nat) (hx : x < 2 ^ 2 ^ L) :
    ∀ (n j : Nat), (repLanes x (2 ^ L) n).testBit j =
      (decide (j < n * 2 ^ L) && x.testBit (j % 2 ^ L))
  | 0, j => by simp [repLanes]
  | n + 1, j => by
    rw [repLanes, Nat.testBit_or, Nat.testBit_shiftLeft,
      repLanes_testBit L x hx n (j - 2 ^ L)]
    by_cases hj : j < 2 ^ L
    · have h1 : ¬ (2 ^ L ≤ j) := by omega
      have h2 : j < (n + 1) * 2 ^ L := by
        have : (n + 1) * 2 ^ L = n * 2 ^ L + 2 ^ L := by ring
        omega
      rw [Nat.mod_eq_of_lt hj]
      simp [h1, h2]
    · push_neg at hj
      have hxj : x.testBit j = false :=
        Nat.testBit_lt_two_pow (Nat.lt_of_lt_of_le hx
          (Nat.pow_le_pow_right (by omega) hj))
      have hmod : (j - 2 ^ L) % 2 ^ L = j % 2 ^ L := by
        conv_rhs => rw [← Nat.sub_add_cancel hj]
        rw [Nat.add_mod_right]
      have hiff : (j - 2 ^ L < n * 2 ^ L) ↔ (j < (n + 1) * 2 ^ L) := by
        have : (n + 1) * 2 ^ L = n * 2 ^ L + 2 ^ L := by ring
        omega
      rw [hxj, hmod]
      by_cases h3 : j < (n + 1) * 2 ^ L
      · simp [hj, h3, hiff.mpr h3]
      · have h4 : ¬ (j - 2 ^ L < n * 2 ^ L) := fun hc => h3 (hiff.mp hc)
        simp [h3, h4]

theorem lane_broadcast (K L x i : Nat) (hLK : L ≤ K) (hx : x < 2 ^ 2 ^ L)
    (hi : i < 2 ^ (K - L)) : lane L i (broadcastU K L x) = x := by
  apply Nat.eq_of_testBit_eq
  intro r
  rw [lane_testBit, broadcastU, repLanes_testBit L x hx]
  by_cases hr : r < 2 ^ L
  · have hsplit : 2 ^ (K - L) * 2 ^ L = 2 ^ K := by
      rw [← pow_add]
      congr 1
      omega
    have hpos : i * 2 ^ L + r < 2 ^ (K - L) * 2 ^ L := by
      rw [hsplit]
      exact (lane_pos_lt_iff K L i r hLK hr).mpr hi
    have hmod : (i * 2 ^ L + r) % 2 ^ L = r := by
      rw [Nat.mul_comm, Nat.mul_add_mod, Nat.mod_eq_of_lt hr]
    rw [hmod]
    simp [hr, hpos]
  · have hxr : x.testBit r = false :=
      Nat.testBit_lt_two_pow (Nat.lt_of_lt_of_le hx
        (Nat.pow_le_pow_right (by omega) (by omega)))
    simp [hr, hxr]

theorem broadcastU_lt (K L x : Nat) (hLK : L ≤ K) (hx : x < 2 ^ 2 ^ L) :
    broadcastU K L x < 2 ^ 2 ^ K := by
  apply Nat.lt_pow_two_of_testBit
  intro j hj
  rw [broadcastU, repLanes_testBit L x hx]
  have hsplit : 2 ^ (K - L) * 2 ^ L = 2 ^ K := by
    rw [← pow_add]
    congr 1
    omega
  have hKK : (2 : Nat) ^ K ≤ 2 ^ 2 ^ K :=
    Nat.pow_le_pow_right (by omega) (Nat.lt_two_pow K).le
  have : ¬ (j < 2 ^ (K - L) * 2 ^ L) := by omega
  simp [this]

/-! ## Theorems: the packed multiplier -/

theorem alphasU_lt (K L : Nat) (hLK : L < K) : alphasU K L < 2 ^ 2 ^ K := by
  apply Nat.lt_pow_two_of_testBit
  intro j hj
  rw [alphasU_testBit K L hLK]
  have hKK : (2 : Nat) ^ K ≤ 2 ^ 2 ^ K :=
    Nat.pow_le_pow_right (by omega) (Nat.lt_two_pow K).le
  have : ¬ (j < 2 ^ K) := by omega
  simp [this]

/-- The level-`(L+1)` packed multiplication unfolded to its primitive
operations. -/
theorem packedMul_succ_def (K L a b : Nat) :
    packedMul K (L + 1) a b =
      xorAdjacent K L (packedMul K L a b) ^^^
        ((packedMul K L
            (interleaveU K L
              ((interleaveU K L a b).1 ^^^ (interleaveU K L a b).2)
              (alphasU K L ^^^ (packedMul K L a b &&& oddMask K L))).1
            (interleaveU K L
              ((interleaveU K L a b).1 ^^^ (interleaveU K L a b).2)
              (alphasU K L ^^^ (packedMul K L a b &&& oddMask K L))).2 ^^^
          ((packedMul K L
            (interleaveU K L
              ((interleaveU K L a b).1 ^^^ (interleaveU K L a b).2)
              (alphasU K L ^^^ (packedMul K L a b &&& oddMask K L))).1
            (interleaveU K L
              ((interleaveU K L a b).1 ^^^ (interleaveU K L a b).2)
              (alphasU K L ^^^ (packedMul K L a b &&& oddMask K L))).2 <<< 2 ^ L) %
            2 ^ 2 ^ K)) &&& oddMask K L) := rfl

theorem packedMul_lt : ∀ (L K a b : Nat), L ≤ K → a < 2 ^ 2 ^ K → b < 2 ^ 2 ^ K →
    packedMul K L a b < 2 ^ 2 ^ K
  | 0, _, _, b, _, _, hb => Nat.and_lt_two_pow _ hb
  | L + 1, K, a, b, hLK, ha, hb => by
    have hLK' : L < K := by omega
    rw [packedMul_succ_def]
    apply Nat.xor_lt_two_pow (xorAdjacent_lt K L _ hLK')
    exact Nat.lt_of_le_of_lt Nat.and_le_left
      (Nat.xor_lt_two_pow
        (packedMul_lt L K _ _ (by omega)
          (interleave_fst_lt K L _ _ (Nat.xor_lt_two_pow
            (interleave_fst_lt K L a b ha) (interleave_snd_lt K L a b hLK' hb)))
          (interleave_snd_lt K L _ _ hLK' (Nat.xor_lt_two_pow (alphasU_lt K L hLK')
            (Nat.lt_of_le_of_lt Nat.and_le_left
              (packedMul_lt L K a b (by omega) ha hb)))))
        (Nat.mod_lt _ (by positivity)))

theorem lane_split (L i u : Nat) :
    lane (L + 1) i u = lane L (2 * i) u + 2 ^ 2 ^ L * lane L (2 * i + 1) u := by
  have hpow : (2 : Nat) ^ 2 ^ (L + 1) = 2 ^ 2 ^ L * 2 ^ 2 ^ L := by
    rw [← pow_add]
    congr 1
    omega
  have hsh1 : 2 * i * 2 ^ L = i * 2 ^ (L + 1) := by
    rw [pow_succ]
    ring
  have hsh2 : (2 * i + 1) * 2 ^ L = i * 2 ^ (L + 1) + 2 ^ L := by
    rw [pow_succ]
    ring
  rw [lane, lane, lane, hsh1, hsh2, Nat.shiftRight_add, Nat.shiftRight_eq_div_pow,
    hpow, Nat.mod_mul, Nat.shiftRight_eq_div_pow]

theorem lane_split_mod (L i u : Nat) :
    lane (L + 1) i u % 2 ^ 2 ^ L = lane L (2 * i) u := by
  rw [lane_split, Nat.add_mul_mod_self_left, Nat.mod_eq_of_lt (lane_lt L _ u)]

theorem lane_split_div (L i u : Nat) :
    lane (L + 1) i u / 2 ^ 2 ^ L = lane L (2 * i + 1) u := by
  rw [lane_split, Nat.add_mul_div_left _ _ (by positivity),
    Nat.div_eq_of_lt (lane_lt L _ u), Nat.zero_add]

theorem xor_shuffle (p q r s : Nat) :
    (p ^^^ q) ^^^ (s ^^^ ((p ^^^ r) ^^^ q)) = r ^^^ s := by
  apply Nat.eq_of_testBit_eq
  intro j
  simp only [Nat.testBit_xor]
  cases p.testBit j <;> cases q.testBit j <;> cases r.testBit j <;>
    cases s.testBit j <;> rfl

/-- Lane-by-lane correctness of the packed tower multiplication: every lane
of `packedMul` is the scalar tower product of the corresponding lanes. -/
theorem packedMul_lane : ∀ (L K a b : Nat), L ≤ K → a < 2 ^ 2 ^ K → b < 2 ^ 2 ^ K →
    ∀ i, i < 2 ^ (K - L) →
      lane L i (packedMul K L a b) = tmul L (lane L i a) (lane L i b)
  | 0, _, a, b, _, _, _, i, _ => by
    show lane 0 i (a &&& b) = lane 0 i a &&& lane 0 i b
    exact lane_and 0 i a b
  | L + 1, K, a, b, hLK, ha, hb, i, hi => by
    have hLK' : L < K := by omega
    have hKL1 : K - (L + 1) = K - L - 1 := by omega
    have hi' : i < 2 ^ (K - L - 1) := by rw [← hKL1]; exact hi
    have heven := two_pow_sub_even K L hLK'
    have hi2 : 2 * i + 1 < 2 ^ (K - L) := by omega
    -- lanes of the first interleave
    obtain ⟨hc_e, hc_o, hd_e, hd_o⟩ := interleave_lane K L a b i hLK' hi2
    -- lanes of lo ^^^ hi
    have hlp_e : lane L (2 * i) ((interleaveU K L a b).1 ^^^ (interleaveU K L a b).2) =
        lane L (2 * i) a ^^^ lane L (2 * i + 1) a := by
      rw [lane_xor, hc_e, hd_e]
    have hlp_o : lane L (2 * i + 1) ((interleaveU K L a b).1 ^^^ (interleaveU K L a b).2) =
        lane L (2 * i) b ^^^ lane L (2 * i + 1) b := by
      rw [lane_xor, hc_o, hd_o]
    -- IH on the low-level product of a and b
    have hz_e := packedMul_lane L K a b (by omega) ha hb (2 * i) (by omega)
    have hz_o := packedMul_lane L K a b (by omega) ha hb (2 * i + 1) (by omega)
    -- lanes of alphas ^^^ (z02 &&& odd)
    have haz_e : lane L (2 * i)
        (alphasU K L ^^^ (packedMul K L a b &&& oddMask K L)) = alphaVal L := by
      rw [lane_xor, lane_alphasU K L _ (by omega) (by omega),
        lane_and_oddMask K L _ _ hLK' (by omega), if_pos (by omega),
        if_neg (by omega), Nat.xor_zero]
    have haz_o : lane L (2 * i + 1)
        (alphasU K L ^^^ (packedMul K L a b &&& oddMask K L)) =
        tmul L (lane L (2 * i + 1) a) (lane L (2 * i + 1) b) := by
      rw [lane_xor, lane_alphasU K L _ (by omega) (by omega),
        lane_and_oddMask K L _ _ hLK' (by omega), if_neg (by omega),
        if_pos (by omega), Nat.zero_xor, hz_o]
    -- lanes of the second interleave
    obtain ⟨hc2_e, hc2_o, hd2_e, hd2_o⟩ := interleave_lane K L
      ((interleaveU K L a b).1 ^^^ (interleaveU K L a b).2)
      (alphasU K L ^^^ (packedMul K L a b &&& oddMask K L)) i hLK' hi2
    -- bounds for the middle operands
    have hlp_lt : (interleaveU K L a b).1 ^^^ (interleaveU K L a b).2 < 2 ^ 2 ^ K :=
      Nat.xor_lt_two_pow (interleave_fst_lt K L a b ha)
        (interleave_snd_lt K L a b hLK' hb)
    have haz_lt : alphasU K L ^^^ (packedMul K L a b &&& oddMask K L) < 2 ^ 2 ^ K :=
      Nat.xor_lt_two_pow (alphasU_lt K L hLK')
        (Nat.lt_of_le_of_lt Nat.and_le_left (packedMul_lt L K a b (by omega) ha hb))
    -- IH on the middle product
    have hmid_e := packedMul_lane L K
      (interleaveU K L ((interleaveU K L a b).1 ^^^ (interleaveU K L a b).2)
        (alphasU K L ^^^ (packedMul K L a b &&& oddMask K L))).1
      (interleaveU K L ((interleaveU K L a b).1 ^^^ (interleaveU K L a b).2)
        (alphasU K L ^^^ (packedMul K L a b &&& oddMask K L))).2
      (by omega) (interleave_fst_lt K L _ _ hlp_lt)
      (interleave_snd_lt K L _ _ hLK' haz_lt) (2 * i) (by omega)
    have hmid_o := packedMul_lane L K
      (interleaveU K L ((interleaveU K L a b).1 ^^^ (interleaveU K L a b).2)
        (alphasU K L ^^^ (packedMul K L a b &&& oddMask K L))).1
      (interleaveU K L ((interleaveU K L a b).1 ^^^ (interleaveU K L a b).2)
        (alphasU K L ^^^ (packedMul K L a b &&& oddMask K L))).2
      (by omega) (interleave_fst_lt K L _ _ hlp_lt)
      (interleave_snd_lt K L _ _ hLK' haz_lt) (2 * i + 1) hi2
    rw [hc2_e, hlp_e] at hmid_e
    rw [hd2_e, hlp_o] at hmid_e
    rw [hc2_o, haz_e] at hmid_o
    rw [hd2_o, haz_o] at hmid_o
    -- lanes of the duplicated z0 + z2 term
    obtain ⟨hdup_e, hdup_o⟩ := xorAdjacent_lane K L (packedMul K L a b) i hLK' hi2
    rw [hz_e, hz_o] at hdup_e hdup_o
    -- result lanes
    have hres_e : lane L (2 * i) (packedMul K (L + 1) a b) =
        tmul L (lane L (2 * i) a) (lane L (2 * i) b) ^^^
          tmul L (lane L (2 * i + 1) a) (lane L (2 * i + 1) b) := by
      rw [packedMul_succ_def, lane_xor, hdup_e,
        lane_and_oddMask K L _ _ hLK' (by omega), if_neg (by omega), Nat.xor_zero]
    have hres_o : lane L (2 * i + 1) (packedMul K (L + 1) a b) =
        (tmul L (lane L (2 * i) a) (lane L (2 * i + 1) b) ^^^
          tmul L (lane L (2 * i + 1) a) (lane L (2 * i) b)) ^^^
          tmul L (alphaVal L)
            (tmul L (lane L (2 * i + 1) a) (lane L (2 * i + 1) b)) := by
      rw [packedMul_succ_def, lane_xor, hdup_o,
        lane_and_oddMask K L _ _ hLK' (by omega), if_pos (by omega), lane_xor]
      have hshift : 2 * i + 1 = (2 * i) + 1 := rfl
      rw [hshift, lane_shiftLeft_succ K L (2 * i) _ (by omega) hi2]
      rw [hmid_e, hmid_o]
      rw [tmul_karatsuba L _ _ _ _ (lane_lt L _ a) (lane_lt L _ a)
        (lane_lt L _ b) (lane_lt L _ b)]
      exact xor_shuffle _ _ _ _
    rw [lane_split L i (packedMul K (L + 1) a b), hres_e, hres_o, tmul,
      lane_split_mod, lane_split_div, lane_split_mod, lane_split_div]

/-! ## Theorems: packed mul-alpha, square and inversion -/

theorem shiftRight_le_self (u n : Nat) : u >>> n ≤ u := by
  rw [Nat.shiftRight_eq_div_pow]
  exact Nat.div_le_self _ _

theorem lane_ge_width (K L u j : Nat) (hu : u < 2 ^ 2 ^ K) (hLK : L ≤ K)
    (hj : 2 ^ (K - L) ≤ j) : lane L j u = 0 := by
  have hsplit : 2 ^ (K - L) * 2 ^ L = 2 ^ K := by
    rw [← pow_add]
    congr 1
    omega
  have hbig : 2 ^ K ≤ j * 2 ^ L := by
    rw [← hsplit]
    exact Nat.mul_le_mul_right _ hj
  have hzero : u >>> (j * 2 ^ L) = 0 := by
    rw [Nat.shiftRight_eq_div_pow]
    apply Nat.div_eq_of_lt
    exact Nat.lt_of_lt_of_le hu (Nat.pow_le_pow_right (by omega) hbig)
  rw [lane, hzero, Nat.zero_mod]

theorem packedMulAlpha_succ_def (K L a : Nat) :
    packedMulAlpha K (L + 1) a =
      ((a &&& oddMask K L) >>> 2 ^ L) |||
        ((((a &&& evenMask K L) <<< 2 ^ L) % 2 ^ 2 ^ K) ^^^
          packedMulAlpha K L (a &&& oddMask K L)) := rfl

theorem packedMulAlpha_lt : ∀ (L K a : Nat), a < 2 ^ 2 ^ K →
    packedMulAlpha K L a < 2 ^ 2 ^ K
  | 0, _, _, ha => ha
  | L + 1, K, a, ha => by
    rw [packedMulAlpha_succ_def]
    apply Nat.or_lt_two_pow
    · exact Nat.lt_of_le_of_lt (Nat.le_trans (shiftRight_le_self _ _) Nat.and_le_left) ha
    · exact Nat.xor_lt_two_pow (Nat.mod_lt _ (by positivity))
        (packedMulAlpha_lt L K _ (Nat.lt_of_le_of_lt Nat.and_le_left ha))

/-- Lane-by-lane behaviour of the packed multiply-by-generator: every lane
is multiplied by the level's generator `α`. -/
theorem packedMulAlpha_lane : ∀ (L K a : Nat), L ≤ K → a < 2 ^ 2 ^ K →
    ∀ j, j < 2 ^ (K - L) →
      lane L j (packedMulAlpha K L a) = tmul L (alphaVal L) (lane L j a)
  | 0, K, a, _, _, j, _ => by
    show lane 0 j a = tmul 0 1 (lane 0 j a)
    rw [tmul_one_left 0 _ (lane_lt 0 j a)]
  | L + 1, K, a, hLK, ha, i, hi => by
    have hLK' : L < K := by omega
    have hKL1 : K - (L + 1) = K - L - 1 := by omega
    have hi' : i < 2 ^ (K - L - 1) := by rw [← hKL1]; exact hi
    have heven := two_pow_sub_even K L hLK'
    have hi2 : 2 * i + 1 < 2 ^ (K - L) := by omega
    have ha1_lt : a &&& oddMask K L < 2 ^ 2 ^ K :=
      Nat.lt_of_le_of_lt Nat.and_le_left ha
    have ha0_odd : ∀ j, j % 2 = 1 → j < 2 ^ (K - L) →
        lane L j (a &&& evenMask K L) = 0 := by
      intro j h1 h2
      rw [lane_and_evenMask K L _ _ hLK' h2, if_neg (by omega)]
    have hz_e := packedMulAlpha_lane L K (a &&& oddMask K L) (by omega) ha1_lt
      (2 * i) (by omega)
    have hz_o := packedMulAlpha_lane L K (a &&& oddMask K L) (by omega) ha1_lt
      (2 * i + 1) hi2
    rw [lane_and_oddMask K L _ _ hLK' (by omega), if_neg (by omega),
      tmul_zero_right L _ (alphaVal_lt L)] at hz_e
    rw [lane_and_oddMask K L _ _ hLK' hi2, if_pos (by omega)] at hz_o
    have h22 : lane L (2 * i + 1 + 1) (a &&& oddMask K L) = 0 := by
      rcases Nat.lt_or_ge (2 * i + 1 + 1) (2 ^ (K - L)) with hin | hout
      · rw [lane_and_oddMask K L _ _ hLK' hin, if_neg (by omega)]
      · exact lane_ge_width K L _ _ ha1_lt (by omega) hout
    have hres_e : lane L (2 * i) (packedMulAlpha K (L + 1) a) =
        lane L (2 * i + 1) a := by
      rw [packedMulAlpha_succ_def, lane_or, lane_shiftRight,
        lane_and_oddMask K L _ _ hLK' hi2, if_pos (by omega), lane_xor,
        lane_shifted_t_zero K L _ hLK' ha0_odd i (by omega), hz_e,
        Nat.xor_zero, Nat.or_zero]
    have hres_o : lane L (2 * i + 1) (packedMulAlpha K (L + 1) a) =
        lane L (2 * i) a ^^^ tmul L (alphaVal L) (lane L (2 * i + 1) a) := by
      rw [packedMulAlpha_succ_def, lane_or, lane_shiftRight, h22, lane_xor]
      have hsh : 2 * i + 1 = (2 * i) + 1 := rfl
      rw [hsh, lane_shiftLeft_succ K L (2 * i) _ (by omega) hi2,
        lane_and_evenMask K L _ _ hLK' (by omega), if_pos (by omega), hz_o,
        Nat.zero_or]
    rw [lane_split L i (packedMulAlpha K (L + 1) a), hres_e, hres_o, tmul]
    have hmod : alphaVal (L + 1) % 2 ^ 2 ^ L = 0 := by
      show 2 ^ 2 ^ L % 2 ^ 2 ^ L = 0
      exact Nat.mod_self _
    have hdiv : alphaVal (L + 1) / 2 ^ 2 ^ L = 1 := by
      show 2 ^ 2 ^ L / 2 ^ 2 ^ L = 1
      exact Nat.div_self (by positivity)
    rw [hmod, hdiv, lane_split_mod, lane_split_div,
      tmul_zero_left L _ (lane_lt L _ a), tmul_zero_left L _ (lane_lt L _ a),
      tmul_one_left L _ (lane_lt L _ a), tmul_one_left L _ (lane_lt L _ a),
      Nat.zero_xor, Nat.zero_xor]

theorem packedSquare_succ_def (K L a : Nat) :
    packedSquare K (L + 1) a =
      ((packedSquare K L a ^^^ (packedSquare K L a >>> 2 ^ L)) &&& evenMask K L) |||
        (packedMulAlpha K L (packedSquare K L a) &&& oddMask K L) := rfl

theorem packedSquare_lt : ∀ (L K a : Nat), a < 2 ^ 2 ^ K →
    packedSquare K L a < 2 ^ 2 ^ K
  | 0, _, _, ha => ha
  | L + 1, K, a, ha => by
    rw [packedSquare_succ_def]
    apply Nat.or_lt_two_pow
    · exact Nat.lt_of_le_of_lt Nat.and_le_left
        (Nat.xor_lt_two_pow (packedSquare_lt L K a ha)
          (Nat.lt_of_le_of_lt (shiftRight_le_self _ _) (packedSquare_lt L K a ha)))
    · exact Nat.lt_of_le_of_lt Nat.and_le_left
        (packedMulAlpha_lt L K _ (packedSquare_lt L K a ha))

/-- Lane-by-lane behaviour of the packed tower squaring. -/
theorem packedSquare_lane : ∀ (L K a : Nat), L ≤ K → a < 2 ^ 2 ^ K →
    ∀ j, j < 2 ^ (K - L) →
      lane L j (packedSquare K L a) = tmul L (lane L j a) (lane L j a)
  | 0, K, a, _, _, j, _ => by
    show lane 0 j a = lane 0 j a &&& lane 0 j a
    rw [Nat.and_self]
  | L + 1, K, a, hLK, ha, i, hi => by
    have hLK' : L < K := by omega
    have hKL1 : K - (L + 1) = K - L - 1 := by omega
    have hi' : i < 2 ^ (K - L - 1) := by rw [← hKL1]; exact hi
    have heven := two_pow_sub_even K L hLK'
    have hi2 : 2 * i + 1 < 2 ^ (K - L) := by omega
    have hz02_lt := packedSquare_lt L K a ha
    have hz_e := packedSquare_lane L K a (by omega) ha (2 * i) (by omega)
    have hz_o := packedSquare_lane L K a (by omega) ha (2 * i + 1) hi2
    have hres_e : lane L (2 * i) (packedSquare K (L + 1) a) =
        tmul L (lane L (2 * i) a) (lane L (2 * i) a) ^^^
          tmul L (lane L (2 * i + 1) a) (lane L (2 * i + 1) a) := by
      rw [packedSquare_succ_def, lane_or,
        lane_and_evenMask K L _ _ hLK' (by omega), if_pos (by omega),
        lane_and_oddMask K L _ _ hLK' (by omega), if_neg (by omega),
        lane_xor, lane_shiftRight, hz_e, hz_o, Nat.or_zero]
    have hres_o : lane L (2 * i + 1) (packedSquare K (L + 1) a) =
        tmul L (alphaVal L)
          (tmul L (lane L (2 * i + 1) a) (lane L (2 * i + 1) a)) := by
      rw [packedSquare_succ_def, lane_or,
        lane_and_evenMask K L _ _ hLK' hi2, if_neg (by omega),
        lane_and_oddMask K L _ _ hLK' hi2, if_pos (by omega),
        packedMulAlpha_lane L K _ (by omega) hz02_lt (2 * i + 1) hi2, hz_o,
        Nat.zero_or]
    rw [lane_split L i (packedSquare K (L + 1) a), hres_e, hres_o, tmul,
      lane_split_mod, lane_split_div,
      tmul_comm L (lane L (2 * i) a) (lane L (2 * i + 1) a) (lane_lt L _ a)
        (lane_lt L _ a),
      Nat.xor_self, Nat.zero_xor]

theorem packedInvert_succ_def (K L a : Nat) :
    packedInvert K (L + 1) a =
      packedMul K L
        ((packedInvert K L
            (packedMul K L a (a ^^^ packedMulAlpha K L (a >>> 2 ^ L)) ^^^
              packedSquare K L (a >>> 2 ^ L)) &&& evenMask K L) |||
          (((packedInvert K L
              (packedMul K L a (a ^^^ packedMulAlpha K L (a >>> 2 ^ L)) ^^^
                packedSquare K L (a >>> 2 ^ L)) &&& evenMask K L) <<< 2 ^ L) %
            2 ^ 2 ^ K))
        ((a &&& oddMask K L) |||
          ((a ^^^ packedMulAlpha K L (a >>> 2 ^ L)) &&& evenMask K L)) := rfl

theorem packedInvert_lt : ∀ (L K a : Nat), L ≤ K → a < 2 ^ 2 ^ K →
    packedInvert K L a < 2 ^ 2 ^ K
  | 0, _, _, _, ha => ha
  | L + 1, K, a, hLK, ha => by
    have hITM : a ^^^ packedMulAlpha K L (a >>> 2 ^ L) < 2 ^ 2 ^ K :=
      Nat.xor_lt_two_pow ha (packedMulAlpha_lt L K _
        (Nat.lt_of_le_of_lt (shiftRight_le_self _ _) ha))
    have hDLT : packedMul K L a (a ^^^ packedMulAlpha K L (a >>> 2 ^ L)) ^^^
        packedSquare K L (a >>> 2 ^ L) < 2 ^ 2 ^ K :=
      Nat.xor_lt_two_pow (packedMul_lt L K _ _ (by omega) ha hITM)
        (packedSquare_lt L K _ (Nat.lt_of_le_of_lt (shiftRight_le_self _ _) ha))
    rw [packedInvert_succ_def]
    apply packedMul_lt L K _ _ (by omega)
    · exact Nat.or_lt_two_pow
        (Nat.lt_of_le_of_lt Nat.and_le_left (packedInvert_lt L K _ (by omega) hDLT))
        (Nat.mod_lt _ (by positivity))
    · exact Nat.or_lt_two_pow (Nat.lt_of_le_of_lt Nat.and_le_left ha)
        (Nat.lt_of_le_of_lt Nat.and_le_left hITM)

/-- Lane-by-lane behaviour of the packed inversion: every lane is the
scalar inversion-or-zero of the corresponding input lane. -/
theorem packedInvert_lane : ∀ (L K a : Nat), L ≤ K → a < 2 ^ 2 ^ K →
    ∀ j, j < 2 ^ (K - L) →
      lane L j (packedInvert K L a) = sinv L (lane L j a)
  | 0, K, a, _, _, j, _ => rfl
  | L + 1, K, a, hLK, ha, i, hi => by
    have hLK' : L < K := by omega
    have hKL1 : K - (L + 1) = K - L - 1 := by omega
    have hi' : i < 2 ^ (K - L - 1) := by rw [← hKL1]; exact hi
    have heven := two_pow_sub_even K L hLK'
    have hi2 : 2 * i + 1 < 2 ^ (K - L) := by omega
    have hA1E : a >>> 2 ^ L < 2 ^ 2 ^ K :=
      Nat.lt_of_le_of_lt (shiftRight_le_self _ _) ha
    have hITM : a ^^^ packedMulAlpha K L (a >>> 2 ^ L) < 2 ^ 2 ^ K :=
      Nat.xor_lt_two_pow ha (packedMulAlpha_lt L K _ hA1E)
    have hDLT : packedMul K L a (a ^^^ packedMulAlpha K L (a >>> 2 ^ L)) ^^^
        packedSquare K L (a >>> 2 ^ L) < 2 ^ 2 ^ K :=
      Nat.xor_lt_two_pow (packedMul_lt L K _ _ (by omega) ha hITM)
        (packedSquare_lt L K _ hA1E)
    have hDI := packedInvert_lt L K _ (by omega) hDLT
    -- lane values of the intermediate sum
    have hITM_e : lane L (2 * i) (a ^^^ packedMulAlpha K L (a >>> 2 ^ L)) =
        lane L (2 * i) a ^^^ tmul L (alphaVal L) (lane L (2 * i + 1) a) := by
      rw [lane_xor, packedMulAlpha_lane L K _ (by omega) hA1E (2 * i) (by omega),
        lane_shiftRight]
    -- lane value of the norm delta
    have hDLT_e : lane L (2 * i)
        (packedMul K L a (a ^^^ packedMulAlpha K L (a >>> 2 ^ L)) ^^^
          packedSquare K L (a >>> 2 ^ L)) =
        tmul L (lane L (2 * i) a)
            (lane L (2 * i) a ^^^ tmul L (alphaVal L) (lane L (2 * i + 1) a)) ^^^
          tmul L (lane L (2 * i + 1) a) (lane L (2 * i + 1) a) := by
      rw [lane_xor, packedMul_lane L K _ _ (by omega) ha hITM (2 * i) (by omega),
        packedSquare_lane L K _ (by omega) hA1E (2 * i) (by omega),
        lane_shiftRight, hITM_e]
    -- lanes of the duplicated inverted delta
    have hDD0_odd : ∀ j, j % 2 = 1 → j < 2 ^ (K - L) →
        lane L j (packedInvert K L
          (packedMul K L a (a ^^^ packedMulAlpha K L (a >>> 2 ^ L)) ^^^
            packedSquare K L (a >>> 2 ^ L)) &&& evenMask K L) = 0 := by
      intro j h1 h2
      rw [lane_and_evenMask K L _ _ hLK' h2, if_neg (by omega)]
    have hDD_e : lane L (2 * i)
        ((packedInvert K L
            (packedMul K L a (a ^^^ packedMulAlpha K L (a >>> 2 ^ L)) ^^^
              packedSquare K L (a >>> 2 ^ L)) &&& evenMask K L) |||
          (((packedInvert K L
              (packedMul K L a (a ^^^ packedMulAlpha K L (a >>> 2 ^ L)) ^^^
                packedSquare K L (a >>> 2 ^ L)) &&& evenMask K L) <<< 2 ^ L) %
            2 ^ 2 ^ K)) =
        sinv L (tmul L (lane L (2 * i) a)
            (lane L (2 * i) a ^^^ tmul L (alphaVal L) (lane L (2 * i + 1) a)) ^^^
          tmul L (lane L (2 * i + 1) a) (lane L (2 * i + 1) a)) := by
      rw [lane_or, lane_shifted_t_zero K L _ hLK' hDD0_odd i (by omega),
        lane_and_evenMask K L _ _ hLK' (by omega), if_pos (by omega),
        packedInvert_lane L K _ (by omega) hDLT (2 * i) (by omega), hDLT_e,
        Nat.or_zero]
    have hDD_o : lane L (2 * i + 1)
        ((packedInvert K L
            (packedMul K L a (a ^^^ packedMulAlpha K L (a >>> 2 ^ L)) ^^^
              packedSquare K L (a >>> 2 ^ L)) &&& evenMask K L) |||
          (((packedInvert K L
              (packedMul K L a (a ^^^ packedMulAlpha K L (a >>> 2 ^ L)) ^^^
                packedSquare K L (a >>> 2 ^ L)) &&& evenMask K L) <<< 2 ^ L) %
            2 ^ 2 ^ K)) =
        sinv L (tmul L (lane L (2 * i) a)
            (lane L (2 * i) a ^^^ tmul L (alphaVal L) (lane L (2 * i + 1) a)) ^^^
          tmul L (lane L (2 * i + 1) a) (lane L (2 * i + 1) a)) := by
      have hsh : 2 * i + 1 = (2 * i) + 1 := rfl
      rw [lane_or, hsh, lane_shiftLeft_succ K L (2 * i) _ (by omega) hi2,
        lane_and_evenMask K L _ _ hLK' hi2, if_neg (by omega),
        lane_and_evenMask K L _ _ hLK' (by omega), if_pos (by omega),
        packedInvert_lane L K _ (by omega) hDLT (2 * i) (by omega), hDLT_e,
        Nat.zero_or]
    -- lanes of the combined (a1 | intermediate) operand
    have hIA_e : lane L (2 * i)
        ((a &&& oddMask K L) |||
          ((a ^^^ packedMulAlpha K L (a >>> 2 ^ L)) &&& evenMask K L)) =
        lane L (2 * i) a ^^^ tmul L (alphaVal L) (lane L (2 * i + 1) a) := by
      rw [lane_or, lane_and_oddMask K L _ _ hLK' (by omega), if_neg (by omega),
        lane_and_evenMask K L _ _ hLK' (by omega), if_pos (by omega), hITM_e,
        Nat.zero_or]
    have hIA_o : lane L (2 * i + 1)
        ((a &&& oddMask K L) |||
          ((a ^^^ packedMulAlpha K L (a >>> 2 ^ L)) &&& evenMask K L)) =
        lane L (2 * i + 1) a := by
      rw [lane_or, lane_and_oddMask K L _ _ hLK' hi2, if_pos (by omega),
        lane_and_evenMask K L _ _ hLK' hi2, if_neg (by omega), Nat.or_zero]
    have hDD_lt : (packedInvert K L
        (packedMul K L a (a ^^^ packedMulAlpha K L (a >>> 2 ^ L)) ^^^
          packedSquare K L (a >>> 2 ^ L)) &&& evenMask K L) |||
        (((packedInvert K L
            (packedMul K L a (a ^^^ packedMulAlpha K L (a >>> 2 ^ L)) ^^^
              packedSquare K L (a >>> 2 ^ L)) &&& evenMask K L) <<< 2 ^ L) %
          2 ^ 2 ^ K) < 2 ^ 2 ^ K :=
      Nat.or_lt_two_pow (Nat.lt_of_le_of_lt Nat.and_le_left hDI)
        (Nat.mod_lt _ (by positivity))
    have hIA_lt : (a &&& oddMask K L) |||
        ((a ^^^ packedMulAlpha K L (a >>> 2 ^ L)) &&& evenMask K L) < 2 ^ 2 ^ K :=
      Nat.or_lt_two_pow (Nat.lt_of_le_of_lt Nat.and_le_left ha)
        (Nat.lt_of_le_of_lt Nat.and_le_left hITM)
    have hres_e : lane L (2 * i) (packedInvert K (L + 1) a) =
        tmul L (sinv L (tmul L (lane L (2 * i) a)
            (lane L (2 * i) a ^^^ tmul L (alphaVal L) (lane L (2 * i + 1) a)) ^^^
          tmul L (lane L (2 * i + 1) a) (lane L (2 * i + 1) a)))
          (lane L (2 * i) a ^^^ tmul L (alphaVal L) (lane L (2 * i + 1) a)) := by
      rw [packedInvert_succ_def,
        packedMul_lane L K _ _ (by omega) hDD_lt hIA_lt (2 * i) (by omega),
        hDD_e, hIA_e]
    have hres_o : lane L (2 * i + 1) (packedInvert K (L + 1) a) =
        tmul L (sinv L (tmul L (lane L (2 * i) a)
            (lane L (2 * i) a ^^^ tmul L (alphaVal L) (lane L (2 * i + 1) a)) ^^^
          tmul L (lane L (2 * i + 1) a) (lane L (2 * i + 1) a)))
          (lane L (2 * i + 1) a) := by
      rw [packedInvert_succ_def,
        packedMul_lane L K _ _ (by omega) hDD_lt hIA_lt (2 * i + 1) hi2,
        hDD_o, hIA_o]
    rw [lane_split L i (packedInvert K (L + 1) a), hres_e, hres_o, sinv,
      lane_split_mod, lane_split_div]

/-! ## Claim theorems for the packed tower arithmetic -/

/-- C1: for every tower level `L ≥ 1` and every pair of packed vectors at
that level over a `2^K`-bit underlier, `TaggedMul<PackedStrategy>::mul`
decoded lane-by-lane equals the scalar product of the corresponding lanes
under the tower's recursive quadratic-extension multiplication rule. -/
theorem packedMul_matches_scalar_tower (K L a b i : Nat) (hL : 1 ≤ L)
    (hLK : L ≤ K) (ha : a < 2 ^ 2 ^ K) (hb : b < 2 ^ 2 ^ K)
    (hi : i < 2 ^ (K - L)) :
    lane L i (packedMul K L a b) = tmul L (lane L i a) (lane L i b) :=
  packedMul_lane L K a b hLK ha hb i hi

theorem packedMul_matches_scalar_tower_witness :
    (1 ≤ 1 ∧ (1 : Nat) ≤ 3 ∧ (183 : Nat) < 2 ^ 2 ^ 3 ∧ (58 : Nat) < 2 ^ 2 ^ 3 ∧
        (2 : Nat) < 2 ^ (3 - 1)) ∧
      lane 1 2 (packedMul 3 1 183 58) = tmul 1 (lane 1 2 183) (lane 1 2 58) :=
  ⟨⟨le_refl 1, by decide, by decide, by decide, by decide⟩,
    packedMul_matches_scalar_tower 3 1 183 58 2 (le_refl 1) (by decide)
      (by decide) (by decide) (by decide)⟩

/-- C2: `TaggedInvertOrZero<PackedStrategy>::invert_or_zero` is total
(every packed input yields a packed result, lane-by-lane equal to the
scalar inversion-or-zero) and, lane by lane, returns zero on a zero lane
and the multiplicative inverse on a nonzero lane, so that
`mul(aᵢ, invert_or_zero(a)ᵢ) = 1` whenever `aᵢ ≠ 0`. -/
theorem packedInvert_lanewise_inverse (K L a i : Nat) (hL : 1 ≤ L)
    (hLK : L ≤ K) (ha : a < 2 ^ 2 ^ K) (hi : i < 2 ^ (K - L)) :
    lane L i (packedInvert K L a) = sinv L (lane L i a) ∧
    (lane L i a = 0 → lane L i (packedInvert K L a) = 0) ∧
    (lane L i a ≠ 0 →
      tmul L (lane L i a) (lane L i (packedInvert K L a)) = 1) := by
  have h1 := packedInvert_lane L K a hLK ha i hi
  refine ⟨h1, ?_, ?_⟩
  · intro h0
    rw [h1, h0, sinv_zero]
  · intro hne
    rw [h1]
    exact tmul_sinv L _ (lane_lt L i a) hne

theorem packedInvert_lanewise_inverse_witness :
    (1 ≤ 1 ∧ (1 : Nat) ≤ 3 ∧ (210 : Nat) < 2 ^ 2 ^ 3 ∧ (0 : Nat) < 2 ^ (3 - 1)) ∧
      (lane 1 0 (packedInvert 3 1 210) = sinv 1 (lane 1 0 210) ∧
        (lane 1 0 (210 : Nat) = 0 → lane 1 0 (packedInvert 3 1 210) = 0) ∧
        (lane 1 0 (210 : Nat) ≠ 0 →
          tmul 1 (lane 1 0 210) (lane 1 0 (packedInvert 3 1 210)) = 1)) :=
  ⟨⟨le_refl 1, by decide, by decide, by decide⟩,
    packedInvert_lanewise_inverse 3 1 210 0 (le_refl 1) (by decide) (by decide)
      (by decide)⟩

/-- C3: `TaggedSquare<PackedStrategy>::square(a)` equals
`TaggedMul<PackedStrategy>::mul(a, a)` for every packed vector at every
supported tower level. -/
theorem packedSquare_eq_packedMul_self (K L a : Nat) (hL : 1 ≤ L)
    (hLK : L ≤ K) (ha : a < 2 ^ 2 ^ K) :
    packedSquare K L a = packedMul K L a a := by
  apply eq_of_lane_eq K L _ _ hLK (packedSquare_lt L K a ha)
    (packedMul_lt L K a a hLK ha ha)
  intro i hi
  rw [packedSquare_lane L K a hLK ha i hi, packedMul_lane L K a a hLK ha ha i hi]

theorem packedSquare_eq_packedMul_self_witness :
    (1 ≤ 2 ∧ (2 : Nat) ≤ 4 ∧ (47802 : Nat) < 2 ^ 2 ^ 4) ∧
      packedSquare 4 2 47802 = packedMul 4 2 47802 47802 :=
  ⟨⟨by decide, by decide, by decide⟩,
    packedSquare_eq_packedMul_self 4 2 47802 (by decide) (by decide) (by decide)⟩

/-- C4: `TaggedMulAlpha<PackedStrategy>::mul_alpha(a)` equals
`TaggedMul<PackedStrategy>::mul(a, b)` where `b` broadcasts the level's
generator `α` into every lane. -/
theorem packedMulAlpha_eq_packedMul_broadcast (K L a : Nat) (hL : 1 ≤ L)
    (hLK : L ≤ K) (ha : a < 2 ^ 2 ^ K) :
    packedMulAlpha K L a = packedMul K L a (broadcastU K L (alphaVal L)) := by
  have hbc := broadcastU_lt K L _ hLK (alphaVal_lt L)
  apply eq_of_lane_eq K L _ _ hLK (packedMulAlpha_lt L K a ha)
    (packedMul_lt L K _ _ hLK ha hbc)
  intro i hi
  rw [packedMulAlpha_lane L K a hLK ha i hi,
    packedMul_lane L K a _ hLK ha hbc i hi,
    lane_broadcast K L _ i hLK (alphaVal_lt L) hi,
    tmul_comm L (alphaVal L) (lane L i a) (alphaVal_lt L) (lane_lt L i a)]

theorem packedMulAlpha_eq_packedMul_broadcast_witness :
    (1 ≤ 2 ∧ (2 : Nat) ≤ 4 ∧ (417 : Nat) < 2 ^ 2 ^ 4) ∧
      packedMulAlpha 4 2 417 = packedMul 4 2 417 (broadcastU 4 2 (alphaVal 2)) :=
  ⟨⟨by decide, by decide, by decide⟩,
    packedMulAlpha_eq_packedMul_broadcast 4 2 417 (by decide) (by decide)
      (by decide)⟩

/-- C5: applying `interleave` twice returns the original pair of
underliers, at every tower level with a defined interleave mask
(levels `0..K` for a `2^K`-bit underlier). -/
theorem interleave_involutive (K L a b : Nat) (hLK : L < K)
    (ha : a < 2 ^ 2 ^ K) (hb : b < 2 ^ 2 ^ K) :
    interleaveU K L (interleaveU K L a b).1 (interleaveU K L a b).2 = (a, b) :=
  interleave_interleave K L a b hLK ha hb

theorem interleave_involutive_witness :
    ((1 : Nat) < 3 ∧ (183 : Nat) < 2 ^ 2 ^ 3 ∧ (58 : Nat) < 2 ^ 2 ^ 3) ∧
      interleaveU 3 1 (interleaveU 3 1 183 58).1 (interleaveU 3 1 183 58).2 =
        (183, 58) :=
  ⟨⟨by decide, by decide, by decide⟩,
    interleave_involutive 3 1 183 58 (by decide) (by decide) (by decide)⟩

/-- C6 counterexample: for the 8-bit underlier at tower level 0 the
`alphas!` constant is `0x55`; its odd-indexed lane 1 (bits `[1,2)`) holds
`0`, not the generator `α₀ = 1`, refuting the claim that the generator
sits in the odd-indexed lanes. -/
theorem alphasU_odd_lane_counterexample :
    alphasU 3 0 = 0x55 ∧ alphaVal 0 = 1 ∧ lane 0 1 (alphasU 3 0) = 0 ∧
      ¬ (lane 0 1 (alphasU 3 0) = alphaVal 0) := by decide

/-- C6 (amended): the `alphas!` constant is the underlier whose
even-indexed level-`L` lanes (lanes 0, 2, 4, …, lane `i` occupying bits
`[i·2^L, (i+1)·2^L)`) each hold the generator `α_L`, and whose odd-indexed
lanes are all zero. -/
theorem alphasU_even_lanes (K L i : Nat) (hLK : L ≤ K) (hi : i < 2 ^ (K - L)) :
    lane L i (alphasU K L) = if i % 2 = 0 then alphaVal L else 0 :=
  lane_alphasU K L i hLK hi

theorem alphasU_even_lanes_witness :
    ((0 : Nat) ≤ 3 ∧ (2 : Nat) < 2 ^ (3 - 0) ∧ (3 : Nat) < 2 ^ (3 - 0)) ∧
      lane 0 2 (alphasU 3 0) = (if 2 % 2 = 0 then alphaVal 0 else 0) ∧
      lane 0 3 (alphasU 3 0) = (if 3 % 2 = 0 then alphaVal 0 else 0) :=
  ⟨⟨by decide, by decide, by decide⟩,
    alphasU_even_lanes 3 0 2 (by decide) (by decide),
    alphasU_even_lanes 3 0 3 (by decide) (by decide)⟩

/-- C10: the trait method `UnderlierWithBitConstants::interleave` fails its
assertion exactly when `log_block_len` is not less than the length of the
`INTERLEAVE_EVEN_MASK` table; under the precondition it is total and
returns the interleave of its arguments. -/
theorem interleaveChecked_assert (K a b l : Nat) :
    (interleaveChecked K a b l = none ↔ ¬ (l < (interleaveMasks K).length)) ∧
    (l < (interleaveMasks K).length →
      interleaveChecked K a b l = some (interleaveU K l a b)) := by
  unfold interleaveChecked
  by_cases h : l < (interleaveMasks K).length <;> simp [h]

theorem interleaveChecked_assert_witness :
    ((interleaveChecked 3 5 9 1 = none ↔ ¬ (1 < (interleaveMasks 3).length)) ∧
      (1 < (interleaveMasks 3).length →
        interleaveChecked 3 5 9 1 = some (interleaveU 3 1 5 9))) ∧
      ((interleaveChecked 3 5 9 3 = none ↔ ¬ (3 < (interleaveMasks 3).length)) ∧
        (3 < (interleaveMasks 3).length →
          interleaveChecked 3 5 9 3 = some (interleaveU 3 3 5 9))) :=
  ⟨interleaveChecked_assert 3 5 9 1, interleaveChecked_assert 3 5 9 3⟩

end Binius
